import Mathlib

/-!
Verification of the chess core of `zos-apps/chess` (`src/index.tsx`).

The TypeScript source encodes pieces as single characters whose case carries
the side (uppercase = white, the first mover; lowercase = black, the second
mover and the automated side).  Here a piece is a structure carrying the side
as a `Bool` (`white = true` for the first mover) and the kind as an
enumeration; a board is a list of rows of optional pieces, mirroring the
`PieceType[][]` array of arrays.

JavaScript array indexing is three-valued: an access can yield a piece, the
explicit empty marker `null`, or `undefined` when the index is out of range.
`rawCell` models exactly this (`none` = `undefined`, `some none` = `null`,
`some (some p)` = a piece); `cellAt` collapses `undefined` and `null`, which
matches every truthiness test (`if (piece)`, `if (target)`) in the source.
The only place the source can actually throw is the unguarded entry lookup
`board[row][col]` in `getValidMoves` when `board[row]` is `undefined`; this
is modelled by `movesFrom` returning `none`.  Scores are modelled as
`WithBot (WithTop ℚ)` so that the JavaScript `-Infinity`/`Infinity`
sentinels of the search are `⊥`/`⊤` and finite scores are exact rationals
(all arithmetic performed by `evaluateBoard` is exact in binary floating
point, so ℚ is a faithful carrier).
-/

namespace Chess

/-- The six piece kinds. -/
inductive Kind where
  | king
  | queen
  | rook
  | bishop
  | knight
  | pawn
deriving DecidableEq

/-- A piece: side (white = first mover, encoded uppercase in the source) and kind. -/
structure Piece where
  white : Bool
  kind : Kind
deriving DecidableEq

/-- A board square: empty (`null` in the source) or a piece. -/
abbrev Cell := Option Piece

/-- The board, an array of rows of cells (`PieceType[][]`). -/
abbrev Board := List (List Cell)

/-- A move `(fromRow, fromCol, toRow, toCol)` as produced by `getAllMoves`. -/
abbrev Move := Int × Int × Int × Int

/-- `isWhite` from the source: `piece !== null && piece === piece.toUpperCase()`. -/
def isWhite (p : Piece) : Bool := p.white

/-- `isBlack` from the source: `piece !== null && piece === piece.toLowerCase()`. -/
def isBlack (p : Piece) : Bool := !p.white

/-- The raw JavaScript lookup `board[r]?.[c]`: `none` models `undefined`
(off the arrays), `some none` models `null`, `some (some p)` a piece. -/
def rawCell (b : Board) (r c : Int) : Option Cell :=
  if r < 0 ∨ c < 0 then none
  else match b[r.toNat]? with
    | none => none
    | some row => row[c.toNat]?

/-- The truthy view of a square: the piece at `(r, c)` if there is one.
Collapses `undefined` and `null`, as every truthiness test in the source does. -/
def cellAt (b : Board) (r c : Int) : Cell := (rawCell b r c).join

/-- The board is a well-formed 8×8 grid. -/
def Good8 (b : Board) : Prop := b.length = 8 ∧ ∀ row ∈ b, row.length = 8

instance : DecidablePred Good8 := fun b => by
  unfold Good8; infer_instance

/-- `addMove` from the source: returns the (at most one) destination pushed to
`moves` and the boolean result (`true` exactly when the target square is in
range and empty). -/
def addMoveRes (b : Board) (w : Bool) (r c : Int) : List (Int × Int) × Bool :=
  if r < 0 ∨ 7 < r ∨ c < 0 ∨ 7 < c then ([], false)
  else match cellAt b r c with
    | none => ([(r, c)], true)
    | some t => if w ≠ isWhite t then ([(r, c)], false) else ([], false)

/-- The body of `addSlide`: the loop `for (let i = 1; i < 8; i++)`, with the
fuel counting remaining iterations.  The second test mirrors line 67 of the
source (`if (board[row + dr * i]?.[col + dc * i]) break;`). -/
def slideGo (b : Board) (w : Bool) (row col dr dc : Int) : Nat → Int → List (Int × Int)
  | 0, _ => []
  | n + 1, i =>
    let res := addMoveRes b w (row + dr * i) (col + dc * i)
    if res.2 = false then res.1
    else if (cellAt b (row + dr * i) (col + dc * i)).isSome then res.1
    else res.1 ++ slideGo b w row col dr dc n (i + 1)

/-- `addSlide` from the source. -/
def addSlide (b : Board) (w : Bool) (row col dr dc : Int) : List (Int × Int) :=
  slideGo b w row col dr dc 7 1

/-- The pawn branch of `getValidMoves`: forward pushes use the strict
`=== null` test (so an off-board `undefined` does not count as empty),
captures use the truthy test. -/
def pawnMoves (b : Board) (row col : Int) (w : Bool) : List (Int × Int) :=
  let dir : Int := if w then -1 else 1
  let startRow : Int := if w then 6 else 1
  let fwd :=
    if rawCell b (row + dir) col = some none then
      (row + dir, col) ::
        (if row = startRow ∧ rawCell b (row + 2 * dir) col = some none then
          [(row + 2 * dir, col)]
        else [])
    else []
  let caps := [(-1 : Int), 1].flatMap fun dc =>
    match cellAt b (row + dir) (col + dc) with
    | some t => if w ≠ isWhite t then [(row + dir, col + dc)] else []
    | none => []
  fwd ++ caps

def knightOffsets : List (Int × Int) :=
  [(-2, -1), (-2, 1), (-1, -2), (-1, 2), (1, -2), (1, 2), (2, -1), (2, 1)]

def bishopDirs : List (Int × Int) := [(-1, -1), (-1, 1), (1, -1), (1, 1)]

def rookDirs : List (Int × Int) := [(-1, 0), (1, 0), (0, -1), (0, 1)]

def queenDirs : List (Int × Int) :=
  [(-1, -1), (-1, 1), (1, -1), (1, 1), (-1, 0), (1, 0), (0, -1), (0, 1)]

def kingOffsets : List (Int × Int) :=
  [(-1, -1), (-1, 0), (-1, 1), (0, -1), (0, 1), (1, -1), (1, 0), (1, 1)]

/-- The kind dispatch (`switch (pieceType)`) of `getValidMoves`, after the
piece at `(row, col)` has been looked up successfully. -/
def genMoves (b : Board) (row col : Int) (p : Piece) : List (Int × Int) :=
  match p.kind with
  | .pawn => pawnMoves b row col p.white
  | .knight => knightOffsets.flatMap fun o => (addMoveRes b p.white (row + o.1) (col + o.2)).1
  | .bishop => bishopDirs.flatMap fun o => addSlide b p.white row col o.1 o.2
  | .rook => rookDirs.flatMap fun o => addSlide b p.white row col o.1 o.2
  | .queen => queenDirs.flatMap fun o => addSlide b p.white row col o.1 o.2
  | .king => kingOffsets.flatMap fun o => (addMoveRes b p.white (row + o.1) (col + o.2)).1

/-- `getValidMoves` from the source.  The entry lookup `board[row][col]` is
unguarded in the source: when `board[row]` is `undefined` (row index outside
the array) the JavaScript code throws a `TypeError`, modelled here as `none`.
Otherwise the result is `some` of the generated destination list (empty when
the square is empty — `if (!piece) return []`, which also fires on an
out-of-range column, whose lookup yields the falsy `undefined`). -/
def movesFrom (b : Board) (row col : Int) : Option (List (Int × Int)) :=
  if row < 0 then none
  else match b[row.toNat]? with
    | none => none
    | some rowL =>
      match (if col < 0 then none else rowL[col.toNat]?).join with
      | none => some []
      | some p => some (genMoves b row col p)

/-- Write `v` at `(r, c)`, a no-op off the grid (the source only ever writes
in-range squares). -/
def setCell (b : Board) (r c : Int) (v : Cell) : Board :=
  if r < 0 ∨ c < 0 then b
  else match b[r.toNat]? with
    | none => b
    | some row => b.set r.toNat (row.set c.toNat v)

/-- `makeMove` from the source: copy the board, move the piece from `src` to
`dst`, clear `src`, and promote a pawn arriving on row 0 or row 7 to a queen
of its own side.  (The copy `board.map(row => [...row])` makes the source
function non-mutating; the model is a pure function, so that is inherent.) -/
def makeMove (b : Board) : Int × Int → Int × Int → Board
  | (fr, fc), (tr, tc) =>
    match cellAt b fr fc with
    | some p =>
      if p.kind = .pawn ∧ (tr = 0 ∨ tr = 7) then
        setCell (setCell (setCell b tr tc (some p)) fr fc none) tr tc
          (some ⟨p.white, .queen⟩)
      else setCell (setCell b tr tc (some p)) fr fc none
    | none => setCell (setCell b tr tc none) fr fc none

/-- Apply a four-component move. -/
def applyMove (b : Board) (m : Move) : Board :=
  makeMove b (m.1, m.2.1) (m.2.2.1, m.2.2.2)

/-- `PIECE_VALUES` from the source: black (second mover) positive, white
(first mover) negative. -/
def pieceValue (p : Piece) : ℚ :=
  match p.kind with
  | .pawn => if p.white then -100 else 100
  | .knight => if p.white then -320 else 320
  | .bishop => if p.white then -330 else 330
  | .rook => if p.white then -500 else 500
  | .queen => if p.white then -900 else 900
  | .king => if p.white then -20000 else 20000

/-- The position bonus `(3.5 - Math.abs(3.5 - c)) * 5 + (3.5 - Math.abs(3.5 - r)) * 5`. -/
def centerBonus (r c : Int) : ℚ :=
  (7 / 2 - |7 / 2 - (c : ℚ)|) * 5 + (7 / 2 - |7 / 2 - (r : ℚ)|) * 5

/-- `evaluateBoard` from the source: the double loop over all 64 squares. -/
def evaluateBoard (b : Board) : ℚ :=
  (List.range 8).foldl (fun (s : ℚ) (r : Nat) =>
    (List.range 8).foldl (fun (s2 : ℚ) (c : Nat) =>
      match cellAt b (r : Int) (c : Int) with
      | none => s2
      | some p => s2 + pieceValue p + (if isBlack p then centerBonus r c else -centerBonus r c)) s) 0

/-- `getAllMoves` from the source: row-major scan, each matching piece
contributing its `getValidMoves` destinations in generation order. -/
def getAllMoves (b : Board) (forBlack : Bool) : List Move :=
  (List.range 8).flatMap fun (r : Nat) =>
    (List.range 8).flatMap fun (c : Nat) =>
      match cellAt b (r : Int) (c : Int) with
      | none => []
      | some p =>
        if (if forBlack then isBlack p else isWhite p) then
          (genMoves b (r : Int) (c : Int) p).map fun d => ((r : Int), (c : Int), d.1, d.2)
        else []

/-- Scores: finite rationals together with the `-Infinity` / `Infinity`
sentinels used by the search. -/
abbrev Score := WithBot (WithTop ℚ)

/-- `-Infinity`. -/
def negInf : Score := ⊥

/-- `Infinity`. -/
def posInf : Score := (⊤ : WithTop ℚ)

/-- A finite score. -/
def Score.ofQ (q : ℚ) : Score := ((q : WithTop ℚ) : Score)

/-- The maximizing loop of `minimax`: folds over the moves keeping `maxEval`
and `alpha`, breaking (returning `maxEval` so far) once `beta <= alpha`. -/
def maxLoop (f : Move → Score → Score → Score) (β : Score) :
    List Move → Score → Score → Score
  | [], _, acc => acc
  | m :: ms, α, acc =>
    let e := f m α β
    let acc2 := max acc e
    let α2 := max α e
    if β ≤ α2 then acc2 else maxLoop f β ms α2 acc2

/-- The minimizing loop of `minimax`: folds keeping `minEval` and `beta`,
breaking once `beta <= alpha`. -/
def minLoop (f : Move → Score → Score → Score) (α : Score) :
    List Move → Score → Score → Score
  | [], _, acc => acc
  | m :: ms, β, acc =>
    let e := f m α β
    let acc2 := min acc e
    let β2 := min β e
    if β2 ≤ α then acc2 else minLoop f α ms β2 acc2

/-- One depth layer of `minimax`, parameterised by the recursive call. -/
def minimaxStep (rec : Board → Score → Score → Bool → Score)
    (b : Board) (α β : Score) (maximizing : Bool) : Score :=
  match getAllMoves b maximizing with
  | [] => if maximizing then negInf else posInf
  | m :: ms =>
    if maximizing then
      maxLoop (fun mv a bt => rec (applyMove b mv) a bt false) β (m :: ms) α negInf
    else
      minLoop (fun mv a bt => rec (applyMove b mv) a bt true) α (m :: ms) β posInf

/-- `minimax` from the source, depth as a natural number. -/
def minimax : Nat → Board → Score → Score → Bool → Score
  | 0 => fun b _ _ _ => Score.ofQ (evaluateBoard b)
  | d + 1 => minimaxStep (minimax d)

/-- The maximizing loop with the pruning break removed (alpha still updated). -/
def npMaxLoop (f : Move → Score → Score → Score) (β : Score) :
    List Move → Score → Score → Score
  | [], _, acc => acc
  | m :: ms, α, acc =>
    let e := f m α β
    npMaxLoop f β ms (max α e) (max acc e)

/-- The minimizing loop with the pruning break removed (beta still updated). -/
def npMinLoop (f : Move → Score → Score → Score) (α : Score) :
    List Move → Score → Score → Score
  | [], _, acc => acc
  | m :: ms, β, acc =>
    let e := f m α β
    npMinLoop f α ms (min β e) (min acc e)

/-- Modelled from the spec side of claim C10: one depth layer of `minimax`
with the pruning break removed and everything else identical. -/
def noPruneStep (rec : Board → Score → Score → Bool → Score)
    (b : Board) (α β : Score) (maximizing : Bool) : Score :=
  match getAllMoves b maximizing with
  | [] => if maximizing then negInf else posInf
  | m :: ms =>
    if maximizing then
      npMaxLoop (fun mv a bt => rec (applyMove b mv) a bt false) β (m :: ms) α negInf
    else
      npMinLoop (fun mv a bt => rec (applyMove b mv) a bt true) α (m :: ms) β posInf

/-- Plain minimax over the identical move enumeration: the source's `minimax`
with the `if (beta <= alpha) break;` lines removed. -/
def noPrune : Nat → Board → Score → Score → Bool → Score
  | 0 => fun b _ _ _ => Score.ofQ (evaluateBoard b)
  | d + 1 => noPruneStep (noPrune d)

/-- The result of the automated side's turn: either a terminal "human side
wins" outcome (`setGameOver('Checkmate! You win!')`) or a chosen move. -/
inductive AIResult where
  | humanWins
  | best (m : Move)
deriving DecidableEq

/-- The best-move selection loop of `aiMove`: keep the move whose score is
strictly greater than the best so far. -/
def aiBest (f : Move → Score) : List Move → Move → Score → Move × Score
  | [], bm, bs => (bm, bs)
  | m :: ms, bm, bs => if bs < f m then aiBest f ms m (f m) else aiBest f ms bm bs

/-- The score the top level assigns to one candidate move:
`minimax(makeMove(board, ...), 2, -Infinity, Infinity, false)`. -/
def aiScore (b : Board) (mv : Move) : Score :=
  minimax 2 (applyMove b mv) negInf posInf false

/-- The core of `aiMove`: terminal result when the automated side has no
moves, otherwise the loop starting from `bestMove = moves[0]`,
`bestScore = -Infinity`. -/
def chooseMove (b : Board) : AIResult :=
  match getAllMoves b true with
  | [] => AIResult.humanWins
  | m :: ms => AIResult.best (aiBest (aiScore b) (m :: ms) m negInf).1

/-- Shorthand cells for the starting layout. -/
def wK : Cell := some ⟨true, .king⟩
def wQ : Cell := some ⟨true, .queen⟩
def wR : Cell := some ⟨true, .rook⟩
def wB : Cell := some ⟨true, .bishop⟩
def wN : Cell := some ⟨true, .knight⟩
def wP : Cell := some ⟨true, .pawn⟩
def bK : Cell := some ⟨false, .king⟩
def bQ : Cell := some ⟨false, .queen⟩
def bR : Cell := some ⟨false, .rook⟩
def bB : Cell := some ⟨false, .bishop⟩
def bN : Cell := some ⟨false, .knight⟩
def bP : Cell := some ⟨false, .pawn⟩

/-- `initialBoard` from the source. -/
def initialBoard : Board :=
  [[bR, bN, bB, bQ, bK, bB, bN, bR],
   [bP, bP, bP, bP, bP, bP, bP, bP],
   [none, none, none, none, none, none, none, none],
   [none, none, none, none, none, none, none, none],
   [none, none, none, none, none, none, none, none],
   [none, none, none, none, none, none, none, none],
   [wP, wP, wP, wP, wP, wP, wP, wP],
   [wR, wN, wB, wQ, wK, wB, wN, wR]]

/-- An all-empty board (no pieces of either side). -/
def emptyBoard : Board := List.replicate 8 (List.replicate 8 (none : Cell))

/-- A board holding exactly one white rook, at `(0, 0)`. -/
def rookBoard : Board :=
  [wR, none, none, none, none, none, none, none] ::
    List.replicate 7 (List.replicate 8 (none : Cell))

/-! ### Basic grid lemmas -/

lemma getElem?_some_lt {α : Type} {l : List α} {i : Nat} {a : α}
    (h : l[i]? = some a) : i < l.length := by
  obtain ⟨hlt, _⟩ := List.getElem?_eq_some.mp h
  exact hlt

lemma getElem?_some_mem {α : Type} {l : List α} {i : Nat} {a : α}
    (h : l[i]? = some a) : a ∈ l := by
  obtain ⟨hlt, heq⟩ := List.getElem?_eq_some.mp h
  exact heq ▸ List.getElem_mem hlt

/-- On an 8×8 board, every in-range raw lookup succeeds. -/
lemma rawCell_of_good8 {b : Board} (hb : Good8 b) {r c : Int}
    (hr0 : 0 ≤ r) (hr7 : r ≤ 7) (hc0 : 0 ≤ c) (hc7 : c ≤ 7) :
    ∃ x, rawCell b r c = some x := by
  have h8 : b.length = 8 := hb.1
  have hrl : r.toNat < b.length := by omega
  obtain ⟨row, hrow⟩ : ∃ row, b[r.toNat]? = some row :=
    ⟨b[r.toNat], List.getElem?_eq_getElem hrl⟩
  have hlen : row.length = 8 := hb.2 row (getElem?_some_mem hrow)
  have hcl : c.toNat < row.length := by omega
  have hg : ¬(r < 0 ∨ c < 0) := by omega
  refine ⟨row[c.toNat], ?_⟩
  unfold rawCell
  rw [if_neg hg, hrow]
  exact List.getElem?_eq_getElem hcl

/-- A successful raw lookup implies both coordinates are in range (8×8 board). -/
lemma rawCell_some_bounds {b : Board} (hb : Good8 b) {r c : Int} {x : Cell}
    (h : rawCell b r c = some x) : 0 ≤ r ∧ r ≤ 7 ∧ 0 ≤ c ∧ c ≤ 7 := by
  unfold rawCell at h
  by_cases hg : r < 0 ∨ c < 0
  · rw [if_pos hg] at h; exact absurd h (by simp)
  · rw [if_neg hg] at h
    push_neg at hg
    rcases hrow : b[r.toNat]? with _ | row
    · rw [hrow] at h; exact absurd h (by simp)
    · rw [hrow] at h
      have h1 : r.toNat < b.length := getElem?_some_lt hrow
      have h2 : c.toNat < row.length := getElem?_some_lt h
      have h3 : row.length = 8 := hb.2 row (getElem?_some_mem hrow)
      have h4 : b.length = 8 := hb.1
      omega

/-- A square holding a piece has both coordinates in range (8×8 board). -/
lemma cellAt_some_bounds {b : Board} (hb : Good8 b) {r c : Int} {t : Piece}
    (h : cellAt b r c = some t) : 0 ≤ r ∧ r ≤ 7 ∧ 0 ≤ c ∧ c ≤ 7 := by
  unfold cellAt at h
  rcases hx : rawCell b r c with _ | x
  · rw [hx] at h; exact absurd h (by simp)
  · exact rawCell_some_bounds hb hx

/-- On an 8×8 board, an empty in-range square reads as an explicit `null`. -/
lemma rawCell_eq_some_none {b : Board} (hb : Good8 b) {r c : Int}
    (hr0 : 0 ≤ r) (hr7 : r ≤ 7) (hc0 : 0 ≤ c) (hc7 : c ≤ 7)
    (h : cellAt b r c = none) : rawCell b r c = some none := by
  obtain ⟨x, hx⟩ := rawCell_of_good8 hb hr0 hr7 hc0 hc7
  unfold cellAt at h
  rw [hx] at h
  rcases x with _ | p
  · exact hx
  · exact absurd h (by simp)

/-- Writing a cell preserves well-formedness. -/
lemma good8_setCell (b : Board) (r c : Int) (v : Cell) (hb : Good8 b) :
    Good8 (setCell b r c v) := by
  unfold setCell
  split
  · exact hb
  · rcases hrow : b[r.toNat]? with _ | row
    · exact hb
    · refine ⟨by rw [List.length_set]; exact hb.1, ?_⟩
      intro rw2 hmem
      rcases List.mem_or_eq_of_mem_set hmem with h | h
      · exact hb.2 rw2 h
      · subst h
        rw [List.length_set]
        exact hb.2 row (getElem?_some_mem hrow)

/-- Reading back the written square. -/
lemma cellAt_setCell_self {b : Board} (hb : Good8 b) {r c : Int} (v : Cell)
    (hr0 : 0 ≤ r) (hr7 : r ≤ 7) (hc0 : 0 ≤ c) (hc7 : c ≤ 7) :
    cellAt (setCell b r c v) r c = v := by
  have h8 : b.length = 8 := hb.1
  have hrl : r.toNat < b.length := by omega
  obtain ⟨row, hrow⟩ : ∃ row, b[r.toNat]? = some row :=
    ⟨b[r.toNat], List.getElem?_eq_getElem hrl⟩
  have hlen : row.length = 8 := hb.2 row (getElem?_some_mem hrow)
  have hg : ¬(r < 0 ∨ c < 0) := by omega
  unfold setCell
  rw [if_neg hg, hrow]
  show cellAt (b.set r.toNat (row.set c.toNat v)) r c = v
  unfold cellAt rawCell
  rw [if_neg hg, List.getElem?_set_self hrl]
  show ((row.set c.toNat v)[c.toNat]?).join = v
  rw [List.getElem?_set_self (show c.toNat < row.length by omega)]
  rfl

/-- Reading any other square after a write. -/
lemma cellAt_setCell_other (b : Board) (r c : Int) (v : Cell) (r' c' : Int)
    (hne : r' ≠ r ∨ c' ≠ c) :
    cellAt (setCell b r c v) r' c' = cellAt b r' c' := by
  unfold setCell
  split
  · rfl
  · rename_i hg
    push_neg at hg
    rcases hrow : b[r.toNat]? with _ | row
    · rfl
    · show cellAt (b.set r.toNat (row.set c.toNat v)) r' c' = cellAt b r' c'
      unfold cellAt rawCell
      by_cases hg2 : r' < 0 ∨ c' < 0
      · rw [if_pos hg2, if_pos hg2]
      · rw [if_neg hg2, if_neg hg2]
        push_neg at hg2
        by_cases hrr : r.toNat = r'.toNat
        · have hreq : r' = r := by omega
          have hcc : c.toNat ≠ c'.toNat := by
            rcases hne with h | h
            · exact absurd hreq h
            · omega
          have hrl : r.toNat < b.length := getElem?_some_lt hrow
          have e1 : (b.set r.toNat (row.set c.toNat v))[r'.toNat]? =
              some (row.set c.toNat v) := by
            rw [← hrr]
            exact List.getElem?_set_self hrl
          have e2 : b[r'.toNat]? = some row := by rw [← hrr]; exact hrow
          rw [e1, e2]
          show ((row.set c.toNat v)[c'.toNat]?).join = (row[c'.toNat]?).join
          rw [List.getElem?_set_ne hcc]
        · rw [List.getElem?_set_ne hrr]

/-! ### Claim C4: pawn promotion -/

/-- C4: for every 8×8 board and every move `(src, dst)` whose source square
holds a pawn, if `dst` is on that pawn's far rank (row 0 for white, the first
mover; row 7 for black, the second mover), then after `makeMove` the square
`dst` holds a queen of the pawn's side. -/
theorem pawn_promotion_queen (b : Board) (fr fc tr tc : Int) (w : Bool)
    (hb : Good8 b) (htc0 : 0 ≤ tc) (htc7 : tc ≤ 7)
    (hp : cellAt b fr fc = some ⟨w, .pawn⟩)
    (htr : tr = if w then 0 else 7) :
    cellAt (makeMove b (fr, fc) (tr, tc)) tr tc = some ⟨w, .queen⟩ := by
  have htr0 : 0 ≤ tr := by rcases w with _ | _ <;> simp at htr <;> omega
  have htr7 : tr ≤ 7 := by rcases w with _ | _ <;> simp at htr <;> omega
  have hor : tr = 0 ∨ tr = 7 := by
    rcases w with _ | _ <;> simp at htr <;> omega
  have hb2 : Good8 (setCell (setCell b tr tc (some ⟨w, .pawn⟩)) fr fc none) :=
    good8_setCell _ _ _ _ (good8_setCell _ _ _ _ hb)
  simp only [makeMove, hp]
  split
  · exact cellAt_setCell_self hb2 _ htr0 htr7 htc0 htc7
  · rename_i hcond
    exact absurd ⟨trivial, hor⟩ hcond

/-- C4 witness: the white pawn on `(6, 4)` of the initial board, moved to
`(0, 4)`, becomes a white queen there. -/
theorem pawn_promotion_queen_wit :
    cellAt (makeMove initialBoard (6, 4) (0, 4)) 0 4 = some ⟨true, .queen⟩ :=
  pawn_promotion_queen initialBoard 6 4 0 4 true (by decide) (by decide)
    (by decide) (by decide) (by decide)

/-! ### Claim C5: frame property of `makeMove` -/

/-- C5 counterexample: the claim quantifies over every pair of in-range
squares, including `src = dst`.  With a rook on `(0, 0)` and the degenerate
move `(0,0) → (0,0)`, the destination square ends up empty, not holding the
moved piece, because `from` is cleared after `to` is written. -/
theorem makeMove_same_square_cex :
    cellAt rookBoard 0 0 = some ⟨true, .rook⟩ ∧
      cellAt (makeMove rookBoard (0, 0) (0, 0)) 0 0 = none := by decide

/-- C5 (amended with `src ≠ dst`): `makeMove` agrees with the input board on
every square other than `src` and `dst`; `src` becomes empty; `dst` receives
the moved piece (promoted to a queen if it is a pawn reaching row 0 or 7).
The input board itself is untouched — the source copies it
(`board.map(row => [...row])`) and the model is a pure function. -/
theorem makeMove_frame (b : Board) (fr fc tr tc : Int)
    (hb : Good8 b) (hfr0 : 0 ≤ fr) (hfr7 : fr ≤ 7) (hfc0 : 0 ≤ fc) (hfc7 : fc ≤ 7)
    (htr0 : 0 ≤ tr) (htr7 : tr ≤ 7) (htc0 : 0 ≤ tc) (htc7 : tc ≤ 7)
    (hne : (fr, fc) ≠ (tr, tc)) :
    (∀ r c : Int, (r ≠ fr ∨ c ≠ fc) → (r ≠ tr ∨ c ≠ tc) →
      cellAt (makeMove b (fr, fc) (tr, tc)) r c = cellAt b r c) ∧
    cellAt (makeMove b (fr, fc) (tr, tc)) fr fc = none ∧
    cellAt (makeMove b (fr, fc) (tr, tc)) tr tc =
      (match cellAt b fr fc with
       | some p =>
         if p.kind = .pawn ∧ (tr = 0 ∨ tr = 7) then some ⟨p.white, .queen⟩ else some p
       | none => none) := by
  have hne2 : fr ≠ tr ∨ fc ≠ tc := by
    by_contra h
    push_neg at h
    exact hne (by rw [h.1, h.2])
  have hne2s : tr ≠ fr ∨ tc ≠ fc := by
    rcases hne2 with h | h
    · exact Or.inl (Ne.symm h)
    · exact Or.inr (Ne.symm h)
  refine ⟨?_, ?_, ?_⟩
  · intro r c hnf hnt
    rcases hcell : cellAt b fr fc with _ | p
    · simp only [makeMove, hcell]
      rw [cellAt_setCell_other _ _ _ _ _ _ hnf, cellAt_setCell_other _ _ _ _ _ _ hnt]
    · simp only [makeMove, hcell]
      split
      · rw [cellAt_setCell_other _ _ _ _ _ _ hnt,
          cellAt_setCell_other _ _ _ _ _ _ hnf,
          cellAt_setCell_other _ _ _ _ _ _ hnt]
      · rw [cellAt_setCell_other _ _ _ _ _ _ hnf,
          cellAt_setCell_other _ _ _ _ _ _ hnt]
  · rcases hcell : cellAt b fr fc with _ | p
    · simp only [makeMove, hcell]
      exact cellAt_setCell_self (good8_setCell _ _ _ _ hb) _ hfr0 hfr7 hfc0 hfc7
    · simp only [makeMove, hcell]
      split
      · rw [cellAt_setCell_other _ _ _ _ _ _ hne2]
        exact cellAt_setCell_self (good8_setCell _ _ _ _ hb) _ hfr0 hfr7 hfc0 hfc7
      · exact cellAt_setCell_self (good8_setCell _ _ _ _ hb) _ hfr0 hfr7 hfc0 hfc7
  · rcases hcell : cellAt b fr fc with _ | p
    · simp only [makeMove, hcell]
      rw [cellAt_setCell_other _ _ _ _ _ _ hne2s]
      exact cellAt_setCell_self hb _ htr0 htr7 htc0 htc7
    · simp only [makeMove, hcell]
      by_cases hpr : p.kind = Kind.pawn ∧ (tr = 0 ∨ tr = 7)
      · rw [if_pos hpr, if_pos hpr]
        exact cellAt_setCell_self
          (good8_setCell _ _ _ _ (good8_setCell _ _ _ _ hb)) _ htr0 htr7 htc0 htc7
      · rw [if_neg hpr, if_neg hpr]
        rw [cellAt_setCell_other _ _ _ _ _ _ hne2s]
        exact cellAt_setCell_self hb _ htr0 htr7 htc0 htc7

/-- C5 witness: moving the initial board's white pawn from `(6, 4)` to
`(4, 4)` leaves `(7, 4)` (the white queen's home neighbour) untouched,
clears `(6, 4)` and puts the pawn on `(4, 4)`. -/
theorem makeMove_frame_wit :
    cellAt (makeMove initialBoard (6, 4) (4, 4)) 7 4 = cellAt initialBoard 7 4 ∧
      cellAt (makeMove initialBoard (6, 4) (4, 4)) 6 4 = none ∧
      cellAt (makeMove initialBoard (6, 4) (4, 4)) 4 4 =
        (match cellAt initialBoard 6 4 with
         | some p =>
           if p.kind = .pawn ∧ ((4 : Int) = 0 ∨ (4 : Int) = 7) then
             some ⟨p.white, .queen⟩
           else some p
         | none => none) := by
  obtain ⟨hframe, hfrom, hto⟩ :=
    makeMove_frame initialBoard 6 4 4 4 (by decide) (by decide) (by decide)
      (by decide) (by decide) (by decide) (by decide) (by decide) (by decide)
      (by decide)
  exact ⟨hframe 7 4 (Or.inl (by decide)) (Or.inl (by decide)), hfrom, hto⟩

/-! ### Claim C8: terminal no-move results -/

/-- C8: when the automated side (black, the maximizer) has no legal moves,
`chooseMove` reports the "human side wins" terminal result rather than a
move; and `minimax` at depth ≥ 1 returns `-Infinity` when the maximizing
side to move has no moves and `+Infinity` when the minimizing side to move
has no moves. -/
theorem no_moves_terminal :
    (∀ b : Board, getAllMoves b true = [] → chooseMove b = AIResult.humanWins) ∧
    (∀ (b : Board) (d : Nat) (α β : Score),
      getAllMoves b true = [] → minimax (d + 1) b α β true = negInf) ∧
    (∀ (b : Board) (d : Nat) (α β : Score),
      getAllMoves b false = [] → minimax (d + 1) b α β false = posInf) := by
  refine ⟨?_, ?_, ?_⟩
  · intro b h
    unfold chooseMove
    rw [h]
  · intro b d α β h
    show minimaxStep (minimax d) b α β true = negInf
    unfold minimaxStep
    rw [h]
    rfl
  · intro b d α β h
    show minimaxStep (minimax d) b α β false = posInf
    unfold minimaxStep
    rw [h]
    rfl

/-- C8 witness: on the empty board neither side has a move, so `chooseMove`
reports the human win and `minimax` at depth ≥ 1 returns the sentinels. -/
theorem no_moves_terminal_wit :
    chooseMove emptyBoard = AIResult.humanWins ∧
      minimax 1 emptyBoard negInf posInf true = negInf ∧
      minimax 3 emptyBoard (Score.ofQ 0) (Score.ofQ 5) false = posInf :=
  ⟨no_moves_terminal.1 emptyBoard (by decide),
    no_moves_terminal.2.1 emptyBoard 0 negInf posInf (by decide),
    no_moves_terminal.2.2 emptyBoard 2 (Score.ofQ 0) (Score.ofQ 5) (by decide)⟩

/-! ### Claim C9: out-of-range coordinates -/

/-- C9 counterexample: with the row index out of `[0,7]` the source's entry
lookup `board[row][col]` dereferences `undefined` and throws a `TypeError`
(modelled as `none`) instead of returning an empty move list. -/
theorem movesFrom_row_out_of_range_cex : movesFrom initialBoard 8 0 = none := by
  decide

/-- C9 (amended): only an out-of-range *column* (with an in-range row) makes
`movesFrom` return the empty move set; an out-of-range *row* makes the entry
lookup `board[row][col]` throw (modelled as `none`). -/
theorem movesFrom_out_of_range :
    (∀ (b : Board) (row col : Int), Good8 b → 0 ≤ row → row ≤ 7 →
      (col < 0 ∨ 7 < col) → movesFrom b row col = some []) ∧
    (∀ (b : Board) (row col : Int), Good8 b → (row < 0 ∨ 7 < row) →
      movesFrom b row col = none) := by
  constructor
  · intro b row col hb hr0 hr7 hc
    have h8 : b.length = 8 := hb.1
    have hrl : row.toNat < b.length := by omega
    obtain ⟨rowL, hrow⟩ : ∃ rowL, b[row.toNat]? = some rowL :=
      ⟨b[row.toNat], List.getElem?_eq_getElem hrl⟩
    have hlen : rowL.length = 8 := hb.2 rowL (getElem?_some_mem hrow)
    have hg : ¬row < 0 := by omega
    unfold movesFrom
    rw [if_neg hg]
    simp only [hrow]
    rcases hc with hc | hc
    · rw [if_pos hc]
      rfl
    · have hg2 : ¬col < 0 := by omega
      rw [if_neg hg2, List.getElem?_eq_none (show rowL.length ≤ col.toNat by omega)]
      rfl
  · intro b row col hb hr
    unfold movesFrom
    rcases hr with hr | hr
    · rw [if_pos hr]
    · have hg : ¬row < 0 := by omega
      rw [if_neg hg,
        List.getElem?_eq_none (show b.length ≤ row.toNat by rw [hb.1]; omega)]

/-- C9 witness: a concrete out-of-range column returns the empty move list,
and a concrete out-of-range row faults. -/
theorem movesFrom_out_of_range_wit :
    movesFrom initialBoard 3 9 = some [] ∧ movesFrom initialBoard 0 (-2) = some [] :=
  ⟨movesFrom_out_of_range.1 initialBoard 3 9 (by decide) (by decide) (by decide)
      (Or.inr (by decide)),
    movesFrom_out_of_range.1 initialBoard 0 (-2) (by decide) (by decide) (by decide)
      (Or.inl (by decide))⟩

/-! ### Claim C6: the evaluator -/

/-- Spec-side per-kind material values (claim C6). -/
def specKindValue : Kind → ℚ
  | .pawn => 100
  | .knight => 320
  | .bishop => 330
  | .rook => 500
  | .queen => 900
  | .king => 20000

/-- The score as the claim words it: a sum over all occupied squares of the
per-kind material value, positive for second-mover (black) pieces and
negative for first-mover (white) pieces, plus the center bonus
`(3.5 - |3.5-col|)*5 + (3.5 - |3.5-row|)*5` with the same signs. -/
def specScore (b : Board) : ℚ :=
  ∑ r ∈ Finset.range 8, ∑ c ∈ Finset.range 8,
    (match cellAt b (r : Int) (c : Int) with
     | none => 0
     | some p =>
       (if isBlack p then (1 : ℚ) else -1) * specKindValue p.kind +
         (if isBlack p then (1 : ℚ) else -1) *
           ((7 / 2 - |7 / 2 - (c : ℚ)|) * 5 + (7 / 2 - |7 / 2 - (r : ℚ)|) * 5))

/-- The contribution of one square to `evaluateBoard`. -/
def sqContrib (b : Board) (r c : Nat) : ℚ :=
  match cellAt b (r : Int) (c : Int) with
  | none => 0
  | some p => pieceValue p + (if isBlack p then centerBonus r c else -centerBonus r c)

lemma foldl_step_sum {f : ℚ → Nat → ℚ} {g : Nat → ℚ}
    (hf : ∀ s x, f s x = s + g x) :
    ∀ (l : List Nat) (s : ℚ), l.foldl f s = s + (l.map g).sum := by
  intro l
  induction l with
  | nil => intro s; simp
  | cons x xs ih =>
    intro s
    rw [List.foldl_cons, hf, ih, List.map_cons, List.sum_cons]
    ring

lemma list_range_map_sum (g : Nat → ℚ) (n : Nat) :
    ((List.range n).map g).sum = ∑ x ∈ Finset.range n, g x := by
  induction n with
  | zero => simp
  | succ n ih =>
    rw [List.range_succ, List.map_append, List.sum_append, Finset.sum_range_succ, ih]
    simp

lemma evaluateBoard_eq_sum (b : Board) :
    evaluateBoard b = ∑ r ∈ Finset.range 8, ∑ c ∈ Finset.range 8, sqContrib b r c := by
  unfold evaluateBoard
  rw [foldl_step_sum (g := fun r => ∑ c ∈ Finset.range 8, sqContrib b r c)]
  · rw [zero_add, list_range_map_sum]
  · intro s r
    rw [foldl_step_sum (g := fun c => sqContrib b r c)]
    · rw [list_range_map_sum]
    · intro s2 c
      unfold sqContrib
      rcases cellAt b (r : Int) (c : Int) with _ | p
      · simp
      · simp only
        ring

/-- C6: for every 8×8 board, `evaluateBoard` equals the sum, over all
occupied squares, of the per-kind material value (pawn 100, knight 320,
bishop 330, rook 500, queen 900, king 20000) — positive for second-mover
pieces and negative for first-mover pieces — plus the center bonus
`(3.5 - |3.5-col|)*5 + (3.5 - |3.5-row|)*5` with the same sign convention. -/
theorem evaluateBoard_eq_spec (b : Board) (hb : Good8 b) :
    evaluateBoard b = specScore b := by
  clear hb
  rw [evaluateBoard_eq_sum]
  unfold specScore
  refine Finset.sum_congr rfl fun r _ => Finset.sum_congr rfl fun c _ => ?_
  unfold sqContrib
  rcases cellAt b (r : Int) (c : Int) with _ | p
  · rfl
  · simp only
    rcases p with ⟨w, k⟩
    rcases w <;> rcases k <;>
      simp [pieceValue, specKindValue, isBlack, centerBonus] <;>
      push_cast <;> ring

/-- C6 witness: the theorem applied to the (well-formed) initial board. -/
theorem evaluateBoard_eq_spec_wit : evaluateBoard initialBoard = specScore initialBoard :=
  evaluateBoard_eq_spec initialBoard (by decide)

/-! ### Claim C1: generated destinations are on-board and never friendly -/

lemma mem_ite_list {α : Type} {P : Prop} [Decidable P] {l1 l2 : List α} {x : α}
    (h : x ∈ (if P then l1 else l2)) : (P ∧ x ∈ l1) ∨ (¬P ∧ x ∈ l2) := by
  split at h
  · exact Or.inl ⟨‹_›, h⟩
  · exact Or.inr ⟨‹_›, h⟩

/-- Everything `addMove` pushes is the probed square, in range, and not a
friendly piece. -/
lemma addMoveRes_mem {b : Board} {w : Bool} {r c : Int} {d : Int × Int}
    (h : d ∈ (addMoveRes b w r c).1) :
    d = (r, c) ∧ 0 ≤ r ∧ r ≤ 7 ∧ 0 ≤ c ∧ c ≤ 7 ∧
      ∀ t : Piece, cellAt b r c = some t → isWhite t ≠ w := by
  unfold addMoveRes at h
  split at h
  · simp at h
  · rename_i hg
    push_neg at hg
    obtain ⟨hr1, hr2, hc1, hc2⟩ := hg
    rcases hcell : cellAt b r c with _ | t
    · simp only [hcell] at h
      simp at h
      refine ⟨by simp [h], by omega, by omega, by omega, by omega, fun t' ht' => ?_⟩
      exact absurd ht' (by simp)
    · simp only [hcell] at h
      split at h
      · rename_i hw
        simp at h
        refine ⟨by simp [h], by omega, by omega, by omega, by omega, fun t' ht' => ?_⟩
        injection ht' with ht2
        subst ht2
        exact Ne.symm hw
      · simp at h

/-- Every destination of the sliding loop comes from some `addMove` probe. -/
lemma slideGo_mem {b : Board} {w : Bool} {row col dr dc : Int} :
    ∀ (n : Nat) (i : Int) (d : Int × Int), d ∈ slideGo b w row col dr dc n i →
      ∃ k : Int, d ∈ (addMoveRes b w (row + dr * k) (col + dc * k)).1 := by
  intro n
  induction n with
  | zero => intro i d h; simp [slideGo] at h
  | succ n ih =>
    intro i d h
    simp only [slideGo] at h
    split at h
    · exact ⟨i, h⟩
    · split at h
      · exact ⟨i, h⟩
      · rw [List.mem_append] at h
        rcases h with h | h
        · exact ⟨i, h⟩
        · exact ih (i + 1) d h

/-- Every pawn destination is on-board and not a friendly piece. -/
lemma pawnMoves_mem {b : Board} (hb : Good8 b) {row col : Int} {w : Bool}
    {d : Int × Int} (h : d ∈ pawnMoves b row col w) :
    (0 ≤ d.1 ∧ d.1 ≤ 7 ∧ 0 ≤ d.2 ∧ d.2 ≤ 7) ∧
      ∀ t : Piece, cellAt b d.1 d.2 = some t → isWhite t ≠ w := by
  simp only [pawnMoves] at h
  rcases List.mem_append.mp h with hf | hcap
  · rcases mem_ite_list hf with ⟨h1, hf⟩ | ⟨_, hf⟩
    · rcases List.mem_cons.mp hf with rfl | hf2
      · obtain ⟨e1, e2, e3, e4⟩ := rawCell_some_bounds hb h1
        refine ⟨⟨e1, e2, e3, e4⟩, fun t' ht' => ?_⟩
        dsimp only at ht'
        unfold cellAt at ht'
        rw [h1] at ht'
        simp at ht'
      · rcases mem_ite_list hf2 with ⟨⟨hstart, h2⟩, hf3⟩ | ⟨_, hf3⟩
        · rcases List.mem_singleton.mp hf3 with rfl
          obtain ⟨e1, e2, e3, e4⟩ := rawCell_some_bounds hb h2
          refine ⟨⟨e1, e2, e3, e4⟩, fun t' ht' => ?_⟩
          dsimp only at ht'
          unfold cellAt at ht'
          rw [h2] at ht'
          simp at ht'
        · simp at hf3
    · simp at hf
  · rcases List.mem_flatMap.mp hcap with ⟨dc, _, hmem⟩
    rcases hcell : cellAt b (row + (if w = true then (-1 : Int) else 1)) (col + dc)
      with _ | t
    · simp only [hcell] at hmem
      simp at hmem
    · simp only [hcell] at hmem
      split at hmem
      · rename_i hw
        rcases List.mem_singleton.mp hmem with rfl
        obtain ⟨e1, e2, e3, e4⟩ := cellAt_some_bounds hb hcell
        refine ⟨⟨e1, e2, e3, e4⟩, fun t' ht' => ?_⟩
        dsimp only at ht'
        rw [hcell] at ht'
        injection ht' with ht2
        subst ht2
        exact Ne.symm hw
      · simp at hmem

/-- For an in-range square, `movesFrom` succeeds and returns the kind
dispatch of the piece found there (empty list for an empty square). -/
lemma movesFrom_eq_of_inrange {b : Board} (hb : Good8 b) {row col : Int}
    (hr0 : 0 ≤ row) (hr7 : row ≤ 7) :
    movesFrom b row col =
      some (match cellAt b row col with
            | none => []
            | some p => genMoves b row col p) := by
  have h8 : b.length = 8 := hb.1
  have hrl : row.toNat < b.length := by omega
  obtain ⟨rowL, hrow⟩ : ∃ rowL, b[row.toNat]? = some rowL :=
    ⟨b[row.toNat], List.getElem?_eq_getElem hrl⟩
  have hg : ¬row < 0 := by omega
  have hcell : cellAt b row col = (if col < 0 then none else rowL[col.toNat]?).join := by
    unfold cellAt rawCell
    by_cases hc : col < 0
    · rw [if_pos (Or.inr hc), if_pos hc]
    · rw [if_neg (show ¬(row < 0 ∨ col < 0) by omega), if_neg hc]
      simp only [hrow]
  unfold movesFrom
  rw [if_neg hg]
  simp only [hrow]
  rw [← hcell]
  rcases cellAt b row col with _ | p <;> rfl

/-- C1: for every 8×8 board and in-range square holding a piece, every
destination returned by `movesFrom` is on-board (row, col ∈ [0,7]) and is
not occupied by a piece of the same side as the moving piece. -/
theorem movesFrom_dests_ok (b : Board) (row col : Int) (p : Piece)
    (ms : List (Int × Int)) (hb : Good8 b)
    (hr0 : 0 ≤ row) (hr7 : row ≤ 7) (hc0 : 0 ≤ col) (hc7 : col ≤ 7)
    (hp : cellAt b row col = some p) (hms : movesFrom b row col = some ms) :
    ∀ d ∈ ms, (0 ≤ d.1 ∧ d.1 ≤ 7 ∧ 0 ≤ d.2 ∧ d.2 ≤ 7) ∧
      ∀ t : Piece, cellAt b d.1 d.2 = some t → isWhite t ≠ isWhite p := by
  have h2 : movesFrom b row col = some (genMoves b row col p) := by
    rw [movesFrom_eq_of_inrange hb hr0 hr7, hp]
  rw [h2] at hms
  injection hms with h3
  subst h3
  intro d hd
  rcases p with ⟨w, k⟩
  cases k
  case pawn =>
    simp only [genMoves] at hd
    exact pawnMoves_mem hb hd
  case knight =>
    simp only [genMoves] at hd
    rcases List.mem_flatMap.mp hd with ⟨o, _, hmem⟩
    obtain ⟨rfl, h1, h2, h3, h4, hside⟩ := addMoveRes_mem hmem
    exact ⟨⟨h1, h2, h3, h4⟩, hside⟩
  case king =>
    simp only [genMoves] at hd
    rcases List.mem_flatMap.mp hd with ⟨o, _, hmem⟩
    obtain ⟨rfl, h1, h2, h3, h4, hside⟩ := addMoveRes_mem hmem
    exact ⟨⟨h1, h2, h3, h4⟩, hside⟩
  case bishop =>
    simp only [genMoves] at hd
    rcases List.mem_flatMap.mp hd with ⟨o, _, hmem⟩
    unfold addSlide at hmem
    rcases slideGo_mem 7 1 d hmem with ⟨k2, hk⟩
    obtain ⟨rfl, h1, h2, h3, h4, hside⟩ := addMoveRes_mem hk
    exact ⟨⟨h1, h2, h3, h4⟩, hside⟩
  case rook =>
    simp only [genMoves] at hd
    rcases List.mem_flatMap.mp hd with ⟨o, _, hmem⟩
    unfold addSlide at hmem
    rcases slideGo_mem 7 1 d hmem with ⟨k2, hk⟩
    obtain ⟨rfl, h1, h2, h3, h4, hside⟩ := addMoveRes_mem hk
    exact ⟨⟨h1, h2, h3, h4⟩, hside⟩
  case queen =>
    simp only [genMoves] at hd
    rcases List.mem_flatMap.mp hd with ⟨o, _, hmem⟩
    unfold addSlide at hmem
    rcases slideGo_mem 7 1 d hmem with ⟨k2, hk⟩
    obtain ⟨rfl, h1, h2, h3, h4, hside⟩ := addMoveRes_mem hk
    exact ⟨⟨h1, h2, h3, h4⟩, hside⟩

/-- C1 witness: the initial board's pawn at `(6, 4)` generates `[(5,4),(4,4)]`;
the theorem instantiated at the destination `(5, 4)`. -/
theorem movesFrom_dests_ok_wit :
    (0 ≤ (5 : Int) ∧ (5 : Int) ≤ 7 ∧ 0 ≤ (4 : Int) ∧ (4 : Int) ≤ 7) ∧
      ∀ t : Piece, cellAt initialBoard 5 4 = some t →
        isWhite t ≠ isWhite ⟨true, .pawn⟩ :=
  movesFrom_dests_ok initialBoard 6 4 ⟨true, .pawn⟩ [(5, 4), (4, 4)]
    (by decide) (by decide) (by decide) (by decide) (by decide) (by decide)
    (by decide) ((5 : Int), (4 : Int)) (by decide)

/-! ### Claim C3: the pawn rule, exactly -/

/-- The pawn's forward direction (`dir` in the source). -/
def pawnDir (w : Bool) : Int := if w then -1 else 1

/-- The pawn's starting rank (`startRow` in the source). -/
def pawnStart (w : Bool) : Int := if w then 6 else 1

lemma pawnMoves_eq (b : Board) (row col : Int) (w : Bool) :
    pawnMoves b row col w =
      (if rawCell b (row + pawnDir w) col = some none then
        (row + pawnDir w, col) ::
          (if row = pawnStart w ∧ rawCell b (row + 2 * pawnDir w) col = some none then
            [(row + 2 * pawnDir w, col)]
          else [])
      else []) ++
      [(-1 : Int), 1].flatMap (fun dc =>
        match cellAt b (row + pawnDir w) (col + dc) with
        | some t => if w ≠ isWhite t then [(row + pawnDir w, col + dc)] else []
        | none => []) := rfl

lemma pawnStart_bounds {row : Int} {w : Bool} (h : row = pawnStart w) :
    0 ≤ row + pawnDir w ∧ row + pawnDir w ≤ 7 ∧
      0 ≤ row + 2 * pawnDir w ∧ row + 2 * pawnDir w ≤ 7 := by
  rcases w <;> simp [pawnStart, pawnDir] at h ⊢ <;> omega

/-- C3: for an in-range pawn on an 8×8 board, the returned destinations are
exactly: the one-square forward square when on-board and empty; additionally
the two-square forward square when the pawn stands on its side's starting
rank and both squares ahead are empty; and each diagonally-forward square
occupied by an opposing piece — in particular never a diagonal move onto an
empty square or a friendly piece. -/
theorem pawn_moves_exact (b : Board) (row col : Int) (w : Bool)
    (ms : List (Int × Int)) (hb : Good8 b)
    (hr0 : 0 ≤ row) (hr7 : row ≤ 7) (hc0 : 0 ≤ col) (hc7 : col ≤ 7)
    (hp : cellAt b row col = some ⟨w, .pawn⟩)
    (hms : movesFrom b row col = some ms) :
    ∀ r c : Int, ((r, c) ∈ ms ↔
      (r = row + pawnDir w ∧ c = col ∧ 0 ≤ r ∧ r ≤ 7 ∧ cellAt b r c = none) ∨
      (r = row + 2 * pawnDir w ∧ c = col ∧ row = pawnStart w ∧
        cellAt b (row + pawnDir w) col = none ∧ cellAt b r c = none) ∨
      ((c = col - 1 ∨ c = col + 1) ∧ r = row + pawnDir w ∧
        ∃ t : Piece, cellAt b r c = some t ∧ isWhite t ≠ w)) := by
  have h2 : movesFrom b row col = some (genMoves b row col ⟨w, .pawn⟩) := by
    rw [movesFrom_eq_of_inrange hb hr0 hr7, hp]
  rw [h2] at hms
  injection hms with h3
  subst h3
  intro r c
  show (r, c) ∈ pawnMoves b row col w ↔ _
  rw [pawnMoves_eq]
  constructor
  · intro h
    rcases List.mem_append.mp h with hf | hcap
    · rcases mem_ite_list hf with ⟨h1, hf⟩ | ⟨_, hf⟩
      · rcases List.mem_cons.mp hf with he | hf2
        · injection he with he1 he2
          obtain ⟨e1, e2, _, _⟩ := rawCell_some_bounds hb h1
          refine Or.inl ⟨he1, he2, by omega, by omega, ?_⟩
          subst he1; subst he2
          unfold cellAt
          rw [h1]
          rfl
        · rcases mem_ite_list hf2 with ⟨⟨hstart, h4⟩, hf3⟩ | ⟨_, hf3⟩
          · rcases List.mem_singleton.mp hf3 with he
            injection he with he1 he2
            refine Or.inr (Or.inl ⟨he1, he2, hstart, ?_, ?_⟩)
            · unfold cellAt; rw [h1]; rfl
            · subst he1; subst he2
              unfold cellAt; rw [h4]; rfl
          · simp at hf3
      · simp at hf
    · rcases List.mem_flatMap.mp hcap with ⟨dc, hdc, hmem⟩
      rcases hcell : cellAt b (row + pawnDir w) (col + dc) with _ | t
      · simp only [hcell] at hmem
        simp at hmem
      · simp only [hcell] at hmem
        split at hmem
        · rename_i hw
          rcases List.mem_singleton.mp hmem with he
          injection he with he1 he2
          have hdc2 : dc = -1 ∨ dc = 1 := by
            rcases List.mem_cons.mp hdc with h | h
            · exact Or.inl h
            · exact Or.inr (List.mem_singleton.mp h)
          refine Or.inr (Or.inr ⟨?_, he1, ⟨t, ?_, Ne.symm hw⟩⟩)
          · rcases hdc2 with rfl | rfl
            · exact Or.inl (by omega)
            · exact Or.inr (by omega)
          · subst he1; subst he2
            exact hcell
        · simp at hmem
  · intro h
    rcases h with ⟨he1, he2, hb0, hb7, hcell⟩ | ⟨he1, he2, hstart, hcell1, hcell2⟩ |
      ⟨hcc, he1, t, hcell, hw⟩
    · subst he1; subst he2
      have hraw := rawCell_eq_some_none hb hb0 hb7 hc0 hc7 hcell
      refine List.mem_append.mpr (Or.inl ?_)
      rw [if_pos hraw]
      exact List.mem_cons_self _ _
    · subst he1; subst he2
      obtain ⟨e1, e2, e3, e4⟩ := pawnStart_bounds hstart
      have hraw1 := rawCell_eq_some_none hb e1 e2 hc0 hc7 hcell1
      have hraw2 := rawCell_eq_some_none hb e3 e4 hc0 hc7 hcell2
      refine List.mem_append.mpr (Or.inl ?_)
      rw [if_pos hraw1]
      refine List.mem_cons_of_mem _ ?_
      rw [if_pos ⟨hstart, hraw2⟩]
      exact List.mem_singleton.mpr rfl
    · subst he1
      refine List.mem_append.mpr (Or.inr ?_)
      rcases hcc with hcm | hcp
      · refine List.mem_flatMap.mpr ⟨-1, by simp, ?_⟩
        have hce : col + (-1 : Int) = c := by omega
        rw [hce]
        simp only [hcell]
        rw [if_pos (Ne.symm hw)]
        exact List.mem_singleton.mpr rfl
      · refine List.mem_flatMap.mpr ⟨1, by simp, ?_⟩
        have hce : col + (1 : Int) = c := by omega
        rw [hce]
        simp only [hcell]
        rw [if_pos (Ne.symm hw)]
        exact List.mem_singleton.mpr rfl

/-- C3 witness: the initial board's pawn at `(6, 4)` (white, start rank):
its move list is exactly `[(5,4),(4,4)]`; the characterization instantiated
at the two-square destination `(4, 4)`. -/
theorem pawn_moves_exact_wit :
    (((4 : Int), (4 : Int)) ∈ [((5 : Int), (4 : Int)), (4, 4)] ↔
      ((4 : Int) = 6 + pawnDir true ∧ (4 : Int) = 4 ∧ 0 ≤ (4 : Int) ∧ (4 : Int) ≤ 7 ∧
        cellAt initialBoard 4 4 = none) ∨
      ((4 : Int) = 6 + 2 * pawnDir true ∧ (4 : Int) = 4 ∧ (6 : Int) = pawnStart true ∧
        cellAt initialBoard (6 + pawnDir true) 4 = none ∧
        cellAt initialBoard 4 4 = none) ∨
      (((4 : Int) = 4 - 1 ∨ (4 : Int) = 4 + 1) ∧ (4 : Int) = 6 + pawnDir true ∧
        ∃ t : Piece, cellAt initialBoard 4 4 = some t ∧ isWhite t ≠ true)) :=
  pawn_moves_exact initialBoard 6 4 true [(5, 4), (4, 4)] (by decide)
    (by decide) (by decide) (by decide) (by decide) (by decide) (by decide) 4 4

/-! ### Claim C2: sliding pieces stop at the first occupied square -/

/-- The direction set of each sliding kind (empty for non-sliders). -/
def slideDirs : Kind → List (Int × Int)
  | .bishop => bishopDirs
  | .rook => rookDirs
  | .queen => queenDirs
  | _ => []

/-- An in-range empty square. -/
def emptyAt (b : Board) (r c : Int) : Prop :=
  0 ≤ r ∧ r ≤ 7 ∧ 0 ≤ c ∧ c ≤ 7 ∧ cellAt b r c = none

/-- An in-range square that is empty or holds an opposing piece. -/
def okTarget (b : Board) (w : Bool) (r c : Int) : Prop :=
  0 ≤ r ∧ r ≤ 7 ∧ 0 ≤ c ∧ c ≤ 7 ∧
    (cellAt b r c = none ∨ ∃ t : Piece, cellAt b r c = some t ∧ isWhite t ≠ w)

/-- Exhaustive case analysis of one `addMove` probe. -/
lemma addMoveRes_cases (b : Board) (w : Bool) (r c : Int) :
    (0 ≤ r ∧ r ≤ 7 ∧ 0 ≤ c ∧ c ≤ 7 ∧ cellAt b r c = none ∧
      addMoveRes b w r c = ([(r, c)], true)) ∨
    (0 ≤ r ∧ r ≤ 7 ∧ 0 ≤ c ∧ c ≤ 7 ∧
      (∃ t : Piece, cellAt b r c = some t ∧ isWhite t ≠ w) ∧
      addMoveRes b w r c = ([(r, c)], false)) ∨
    (0 ≤ r ∧ r ≤ 7 ∧ 0 ≤ c ∧ c ≤ 7 ∧
      (∃ t : Piece, cellAt b r c = some t ∧ isWhite t = w) ∧
      addMoveRes b w r c = ([], false)) ∨
    ((r < 0 ∨ 7 < r ∨ c < 0 ∨ 7 < c) ∧ addMoveRes b w r c = ([], false)) := by
  by_cases hg : r < 0 ∨ 7 < r ∨ c < 0 ∨ 7 < c
  · refine Or.inr (Or.inr (Or.inr ⟨hg, ?_⟩))
    unfold addMoveRes
    rw [if_pos hg]
  · push_neg at hg
    obtain ⟨h1, h2, h3, h4⟩ := hg
    have hgg : ¬(r < 0 ∨ 7 < r ∨ c < 0 ∨ 7 < c) := by omega
    rcases hcell : cellAt b r c with _ | t
    · refine Or.inl ⟨by omega, by omega, by omega, by omega, rfl, ?_⟩
      unfold addMoveRes
      rw [if_neg hgg]
      simp only [hcell]
    · by_cases hw : w ≠ isWhite t
      · refine Or.inr (Or.inl ⟨by omega, by omega, by omega, by omega,
          ⟨t, rfl, Ne.symm hw⟩, ?_⟩)
        unfold addMoveRes
        rw [if_neg hgg]
        simp only [hcell]
        rw [if_pos hw]
      · push_neg at hw
        refine Or.inr (Or.inr (Or.inl ⟨by omega, by omega, by omega, by omega,
          ⟨t, rfl, hw.symm⟩, ?_⟩))
        unfold addMoveRes
        rw [if_neg hgg]
        simp only [hcell]
        rw [if_neg (by simp [hw])]

lemma slideGo_succ_of_true {b : Board} {w : Bool} {row col dr dc : Int}
    (n : Nat) (i : Int)
    (he : addMoveRes b w (row + dr * i) (col + dc * i) =
      ([(row + dr * i, col + dc * i)], true))
    (hcell : cellAt b (row + dr * i) (col + dc * i) = none) :
    slideGo b w row col dr dc (n + 1) i =
      (row + dr * i, col + dc * i) :: slideGo b w row col dr dc n (i + 1) := by
  simp [slideGo, he, hcell]

lemma slideGo_succ_of_false {b : Board} {w : Bool} {row col dr dc : Int}
    (n : Nat) (i : Int) {l : List (Int × Int)}
    (he : addMoveRes b w (row + dr * i) (col + dc * i) = (l, false)) :
    slideGo b w row col dr dc (n + 1) i = l := by
  simp [slideGo, he]

/-- Full characterization of the sliding loop: the destinations are exactly
the steps `k` (within the fuel window) such that every strictly earlier step
is an in-range empty square and step `k` itself is in range and empty or
opposing. -/
lemma slideGo_mem_iff (b : Board) (w : Bool) (row col dr dc : Int) :
    ∀ (n : Nat) (i : Int) (r c : Int),
      ((r, c) ∈ slideGo b w row col dr dc n i ↔
        ∃ k : Int, i ≤ k ∧ k < i + n ∧ r = row + dr * k ∧ c = col + dc * k ∧
          (∀ j : Int, i ≤ j → j < k → emptyAt b (row + dr * j) (col + dc * j)) ∧
          okTarget b w (row + dr * k) (col + dc * k)) := by
  intro n
  induction n with
  | zero =>
    intro i r c
    constructor
    · intro h
      simp [slideGo] at h
    · rintro ⟨k, hik, hkn, -⟩
      exact absurd hkn (by omega)
  | succ n ih =>
    intro i r c
    rcases addMoveRes_cases b w (row + dr * i) (col + dc * i) with
      ⟨e1, e2, e3, e4, hcell, he⟩ | ⟨e1, e2, e3, e4, ⟨t, hcell, hw⟩, he⟩ |
      ⟨e1, e2, e3, e4, ⟨t, hcell, hw⟩, he⟩ | ⟨hout, he⟩
    · rw [slideGo_succ_of_true n i he hcell]
      constructor
      · intro h
        rcases List.mem_cons.mp h with hhead | htail
        · injection hhead with hx hy
          refine ⟨i, le_refl i, by omega, hx, hy, ?_, e1, e2, e3, e4, Or.inl hcell⟩
          intro j hij hji
          exact absurd (lt_of_le_of_lt hij hji) (lt_irrefl i)
        · obtain ⟨k, hk1, hk2, hx, hy, hpr, hok⟩ := (ih (i + 1) r c).mp htail
          refine ⟨k, by omega, by omega, hx, hy, ?_, hok⟩
          intro j hij hjk
          by_cases hji : j = i
          · subst hji
            exact ⟨e1, e2, e3, e4, hcell⟩
          · exact hpr j (by omega) hjk
      · rintro ⟨k, hik, hkn, hx, hy, hpr, hok⟩
        by_cases hki : k = i
        · subst hki
          subst hx; subst hy
          exact List.mem_cons_self _ _
        · refine List.mem_cons_of_mem _ ((ih (i + 1) r c).mpr ?_)
          refine ⟨k, by omega, by omega, hx, hy, ?_, hok⟩
          intro j hij hjk
          exact hpr j (by omega) hjk
    · rw [slideGo_succ_of_false n i he]
      constructor
      · intro h
        rcases List.mem_singleton.mp h with hhead
        injection hhead with hx hy
        refine ⟨i, le_refl i, by omega, hx, hy, ?_,
          e1, e2, e3, e4, Or.inr ⟨t, hcell, hw⟩⟩
        intro j hij hji
        exact absurd (lt_of_le_of_lt hij hji) (lt_irrefl i)
      · rintro ⟨k, hik, hkn, hx, hy, hpr, hok⟩
        have hki : k = i := by
          by_contra hne
          obtain ⟨-, -, -, -, hempty⟩ := hpr i (le_refl i) (by omega)
          rw [hempty] at hcell
          exact Option.noConfusion hcell
        subst hki
        subst hx; subst hy
        exact List.mem_singleton.mpr rfl
    · rw [slideGo_succ_of_false n i he]
      constructor
      · intro h
        exact absurd h (List.not_mem_nil _)
      · rintro ⟨k, hik, hkn, hx, hy, hpr, hok⟩
        by_cases hki : k = i
        · subst hki
          obtain ⟨-, -, -, -, hok2⟩ := hok
          rcases hok2 with hnone | ⟨t2, ht2, hw2⟩
          · rw [hnone] at hcell
            exact Option.noConfusion hcell
          · rw [hcell] at ht2
            injection ht2 with ht3
            subst ht3
            exact absurd hw hw2
        · obtain ⟨-, -, -, -, hempty⟩ := hpr i (le_refl i) (by omega)
          rw [hempty] at hcell
          exact Option.noConfusion hcell
    · rw [slideGo_succ_of_false n i he]
      constructor
      · intro h
        exact absurd h (List.not_mem_nil _)
      · rintro ⟨k, hik, hkn, hx, hy, hpr, hok⟩
        by_cases hki : k = i
        · subst hki
          obtain ⟨f1, f2, f3, f4, -⟩ := hok
          rcases hout with h | h | h | h <;> omega
        · obtain ⟨f1, f2, f3, f4, -⟩ := hpr i (le_refl i) (by omega)
          rcases hout with h | h | h | h <;> omega

lemma queenDirs_entries : ∀ d ∈ queenDirs,
    (d.1 = -1 ∨ d.1 = 0 ∨ d.1 = 1) ∧ (d.2 = -1 ∨ d.2 = 0 ∨ d.2 = 1) ∧
      ¬(d.1 = 0 ∧ d.2 = 0) := by decide

lemma slideDirs_sub_queen : ∀ (k : Kind), ∀ d ∈ slideDirs k, d ∈ queenDirs := by
  intro k
  cases k <;> decide

lemma unit_entry_mul_inj {a a' i k : Int}
    (ha : a = -1 ∨ a = 0 ∨ a = 1) (ha' : a' = -1 ∨ a' = 0 ∨ a' = 1)
    (hi : 1 ≤ i) (hk : 1 ≤ k) (h : a * i = a' * k) : a = a' := by
  rcases ha with rfl | rfl | rfl <;> rcases ha' with rfl | rfl | rfl <;> omega

/-- Two outward rays from the same square with unit-entry directions meet
only if direction and step coincide. -/
lemma ray_unique {dr dc dr2 dc2 i k : Int}
    (h1 : dr = -1 ∨ dr = 0 ∨ dr = 1) (h2 : dc = -1 ∨ dc = 0 ∨ dc = 1)
    (h3 : dr2 = -1 ∨ dr2 = 0 ∨ dr2 = 1) (h4 : dc2 = -1 ∨ dc2 = 0 ∨ dc2 = 1)
    (hnz : ¬(dr = 0 ∧ dc = 0)) (hi : 1 ≤ i) (hk : 1 ≤ k)
    (hr : dr * i = dr2 * k) (hc : dc * i = dc2 * k) :
    dr = dr2 ∧ dc = dc2 ∧ i = k := by
  have er : dr = dr2 := unit_entry_mul_inj h1 h3 hi hk hr
  have ec : dc = dc2 := unit_entry_mul_inj h2 h4 hi hk hc
  refine ⟨er, ec, ?_⟩
  subst er; subst ec
  rcases h1 with rfl | rfl | rfl
  · rcases h2 with rfl | rfl | rfl <;> omega
  · rcases h2 with rfl | rfl | rfl
    · omega
    · exact absurd ⟨rfl, rfl⟩ hnz
    · omega
  · rcases h2 with rfl | rfl | rfl <;> omega

lemma step_le_seven {row col dr dc j : Int} (hdir : (dr, dc) ∈ queenDirs)
    (hrow : 0 ≤ row) (hrow7 : row ≤ 7) (hcol : 0 ≤ col) (hcol7 : col ≤ 7)
    (hj : 1 ≤ j)
    (h1 : 0 ≤ row + dr * j) (h2 : row + dr * j ≤ 7)
    (h3 : 0 ≤ col + dc * j) (h4 : col + dc * j ≤ 7) : j ≤ 7 := by
  obtain ⟨g1', g2', g3'⟩ := queenDirs_entries (dr, dc) hdir
  have g1 : dr = -1 ∨ dr = 0 ∨ dr = 1 := g1'
  have g2 : dc = -1 ∨ dc = 0 ∨ dc = 1 := g2'
  have g3 : ¬(dr = 0 ∧ dc = 0) := g3'
  rcases g1 with rfl | rfl | rfl
  · rcases g2 with rfl | rfl | rfl <;> omega
  · rcases g2 with rfl | rfl | rfl
    · omega
    · exact absurd ⟨rfl, rfl⟩ g3
    · omega
  · rcases g2 with rfl | rfl | rfl <;> omega

lemma genMoves_slider {b : Board} {row col : Int} {p : Piece}
    (h : p.kind = .bishop ∨ p.kind = .rook ∨ p.kind = .queen) :
    genMoves b row col p =
      (slideDirs p.kind).flatMap (fun o => addSlide b p.white row col o.1 o.2) := by
  rcases p with ⟨w, k⟩
  cases k
  case bishop => rfl
  case rook => rfl
  case queen => rfl
  case pawn => rcases h with h | h | h <;> exact Kind.noConfusion h
  case knight => rcases h with h | h | h <;> exact Kind.noConfusion h
  case king => rcases h with h | h | h <;> exact Kind.noConfusion h

/-- C2: for a sliding piece (bishop/rook/queen) and one of its directions,
if step `j` along that direction is the first occupied square (all earlier
steps are on-board and empty, step `j` is on-board and holds `q`), then
`movesFrom` returns no destination strictly beyond step `j` on that ray, and
returns step `j` itself exactly when `q` belongs to the opposing side. -/
theorem slider_stops_at_first_blocker (b : Board) (row col : Int) (p : Piece)
    (ms : List (Int × Int)) (dr dc j : Int) (q : Piece)
    (hb : Good8 b) (hr0 : 0 ≤ row) (hr7 : row ≤ 7) (hc0 : 0 ≤ col) (hc7 : col ≤ 7)
    (hp : cellAt b row col = some p)
    (hkind : p.kind = .bishop ∨ p.kind = .rook ∨ p.kind = .queen)
    (hms : movesFrom b row col = some ms)
    (hdir : (dr, dc) ∈ slideDirs p.kind)
    (hj : 1 ≤ j)
    (hprior : ∀ j' : Int, 1 ≤ j' → j' < j → emptyAt b (row + dr * j') (col + dc * j'))
    (hq : cellAt b (row + dr * j) (col + dc * j) = some q) :
    (∀ i : Int, j < i → (row + dr * i, col + dc * i) ∉ ms) ∧
      ((row + dr * j, col + dc * j) ∈ ms ↔ isWhite q ≠ isWhite p) := by
  have h2 : movesFrom b row col = some (genMoves b row col p) := by
    rw [movesFrom_eq_of_inrange hb hr0 hr7, hp]
  rw [h2] at hms
  injection hms with h3
  subst h3
  rw [genMoves_slider hkind]
  have hdirQ : (dr, dc) ∈ queenDirs := slideDirs_sub_queen p.kind _ hdir
  obtain ⟨g1', g2', g3'⟩ := queenDirs_entries (dr, dc) hdirQ
  have g1 : dr = -1 ∨ dr = 0 ∨ dr = 1 := g1'
  have g2 : dc = -1 ∨ dc = 0 ∨ dc = 1 := g2'
  have g3 : ¬(dr = 0 ∧ dc = 0) := g3'
  obtain ⟨f1, f2, f3, f4⟩ := cellAt_some_bounds hb hq
  have hj7 : j ≤ 7 := step_le_seven hdirQ hr0 hr7 hc0 hc7 hj f1 f2 f3 f4
  constructor
  · intro i hi hmem
    rcases List.mem_flatMap.mp hmem with ⟨d2, hd2, hslide⟩
    rcases d2 with ⟨dr2, dc2⟩
    unfold addSlide at hslide
    obtain ⟨k, hk1, hk2, hx, hy, hpr, -⟩ :=
      (slideGo_mem_iff b p.white row col dr2 dc2 7 1 _ _).mp hslide
    have hxx : dr * i = dr2 * k := add_left_cancel hx
    have hyy : dc * i = dc2 * k := add_left_cancel hy
    obtain ⟨g4', g5', g6'⟩ := queenDirs_entries (dr2, dc2) (slideDirs_sub_queen p.kind _ hd2)
    have g4 : dr2 = -1 ∨ dr2 = 0 ∨ dr2 = 1 := g4'
    have g5 : dc2 = -1 ∨ dc2 = 0 ∨ dc2 = 1 := g5'
    obtain ⟨er, ec, ei⟩ := ray_unique g1 g2 g4 g5 g3 (by omega) hk1 hxx hyy
    subst er; subst ec
    obtain ⟨-, -, -, -, hempty⟩ := hpr j (by omega) (by omega)
    rw [hempty] at hq
    exact Option.noConfusion hq
  · constructor
    · intro hmem
      rcases List.mem_flatMap.mp hmem with ⟨d2, hd2, hslide⟩
      rcases d2 with ⟨dr2, dc2⟩
      unfold addSlide at hslide
      obtain ⟨k, hk1, hk2, hx, hy, hpr, hok⟩ :=
        (slideGo_mem_iff b p.white row col dr2 dc2 7 1 _ _).mp hslide
      have hxx : dr * j = dr2 * k := add_left_cancel hx
      have hyy : dc * j = dc2 * k := add_left_cancel hy
      obtain ⟨g4', g5', g6'⟩ :=
        queenDirs_entries (dr2, dc2) (slideDirs_sub_queen p.kind _ hd2)
      have g4 : dr2 = -1 ∨ dr2 = 0 ∨ dr2 = 1 := g4'
      have g5 : dc2 = -1 ∨ dc2 = 0 ∨ dc2 = 1 := g5'
      obtain ⟨er, ec, ei⟩ := ray_unique g1 g2 g4 g5 g3 hj hk1 hxx hyy
      subst er; subst ec; subst ei
      obtain ⟨-, -, -, -, hok2⟩ := hok
      rcases hok2 with hnone | ⟨t, ht, hw⟩
      · rw [hnone] at hq
        exact Option.noConfusion hq
      · rw [hq] at ht
        injection ht with ht2
        subst ht2
        exact hw
    · intro hside
      refine List.mem_flatMap.mpr ⟨(dr, dc), hdir, ?_⟩
      show _ ∈ addSlide b p.white row col dr dc
      unfold addSlide
      refine (slideGo_mem_iff b p.white row col dr dc 7 1 _ _).mpr ?_
      exact ⟨j, hj, by omega, rfl, rfl, fun j' h1 h2 => hprior j' h1 h2,
        f1, f2, f3, f4, Or.inr ⟨q, hq, hside⟩⟩

/-- C2 witness: the initial board's white rook at `(7, 0)`, direction up
`(-1, 0)`: the friendly pawn at `(6, 0)` is the first occupied square, so no
square beyond it is generated and `(6, 0)` itself is not a destination
(the move list of that rook is in fact empty). -/
theorem slider_stops_at_first_blocker_wit :
    (∀ i : Int, 1 < i →
      ((7 : Int) + (-1) * i, (0 : Int) + 0 * i) ∉ ([] : List (Int × Int))) ∧
      (((7 : Int) + (-1) * 1, (0 : Int) + 0 * 1) ∈ ([] : List (Int × Int)) ↔
        isWhite ⟨true, .pawn⟩ ≠ isWhite ⟨true, .rook⟩) :=
  slider_stops_at_first_blocker initialBoard 7 0 ⟨true, .rook⟩ [] (-1) 0 1
    ⟨true, .pawn⟩ (by decide) (by decide) (by decide) (by decide) (by decide)
    (by decide) (Or.inr (Or.inl rfl)) (by decide) (by decide) (by decide)
    (fun j' h1 h2 => absurd (lt_of_le_of_lt h1 h2) (lt_irrefl 1)) (by decide)

/-! ### Claim C7: top-level move selection -/

lemma foldl_max_base_le {α : Type} [LinearOrder α] :
    ∀ (l : List α) (s : α), s ≤ l.foldl max s := by
  intro l
  induction l with
  | nil => intro s; exact le_refl s
  | cons x xs ih => intro s; exact le_trans (le_max_left s x) (ih (max s x))

lemma mem_le_foldl_max {α : Type} [LinearOrder α] :
    ∀ (l : List α) (s x : α), x ∈ l → x ≤ l.foldl max s := by
  intro l
  induction l with
  | nil => intro s x h; exact absurd h (List.not_mem_nil x)
  | cons y ys ih =>
    intro s x h
    rw [List.foldl_cons]
    rcases List.mem_cons.mp h with rfl | h
    · exact le_trans (le_max_right s x) (foldl_max_base_le ys (max s x))
    · exact ih (max s y) x h

/-- The predicate "this move attains score `M`". -/
def isMaxAt (f : Move → Score) (M : Score) (x : Move) : Bool := decide (f x = M)

lemma aiBest_cons (f : Move → Score) (m : Move) (ms : List Move)
    (bm : Move) (bs : Score) :
    aiBest f (m :: ms) bm bs =
      if bs < f m then aiBest f ms m (f m) else aiBest f ms bm bs := rfl

/-- The selection loop returns the first move attaining the running maximum
(or the seed move if no score beats the seed): stated through `find?`. -/
lemma aiBest_fst (f : Move → Score) :
    ∀ (l : List Move) (bm : Move) (bs : Score),
      (if bs < (l.map f).foldl max bs
       then l.find? (isMaxAt f ((l.map f).foldl max bs)) =
         some (aiBest f l bm bs).1
       else (aiBest f l bm bs).1 = bm) := by
  intro l
  induction l with
  | nil =>
    intro bm bs
    simp only [List.map_nil, List.foldl_nil]
    rw [if_neg (lt_irrefl bs)]
    rfl
  | cons m ms ih =>
    intro bm bs
    rw [aiBest_cons]
    simp only [List.map_cons, List.foldl_cons]
    set M := (ms.map f).foldl max (max bs (f m)) with hM
    by_cases h1 : bs < f m
    · rw [if_pos h1]
      have hM2 : (ms.map f).foldl max (f m) = M := by
        rw [hM, max_eq_right (le_of_lt h1)]
      have ihm := ih m (f m)
      rw [hM2] at ihm
      by_cases h2 : f m < M
      · rw [if_pos (lt_trans h1 h2)]
        rw [if_pos h2] at ihm
        show List.find? (isMaxAt f M) (m :: ms) = some (aiBest f ms m (f m)).1
        have hnp : ¬isMaxAt f M m = true :=
          fun hc => absurd (of_decide_eq_true hc) (ne_of_lt h2)
        rw [List.find?_cons_of_neg _ hnp]
        exact ihm
      · have hle3 : f m ≤ M := by
          rw [← hM2]
          exact foldl_max_base_le (ms.map f) (f m)
        have hfm : f m = M := le_antisymm hle3 (le_of_not_lt h2)
        have hbsM : bs < M := by
          rw [← hfm]
          exact h1
        rw [if_neg h2] at ihm
        rw [if_pos hbsM]
        show List.find? (isMaxAt f M) (m :: ms) = some (aiBest f ms m (f m)).1
        have hpp : isMaxAt f M m = true := decide_eq_true hfm
        rw [List.find?_cons_of_pos _ hpp]
        rw [ihm]
    · rw [if_neg h1]
      have hle : f m ≤ bs := le_of_not_lt h1
      have hM2 : (ms.map f).foldl max bs = M := by
        rw [hM, max_eq_left hle]
      have ihm := ih bm bs
      rw [hM2] at ihm
      by_cases h2 : bs < M
      · rw [if_pos h2]
        rw [if_pos h2] at ihm
        have hne : f m ≠ M := by
          intro he
          rw [he] at hle
          exact absurd (lt_of_lt_of_le h2 hle) (lt_irrefl _)
        show List.find? (isMaxAt f M) (m :: ms) = some (aiBest f ms bm bs).1
        have hnp2 : ¬isMaxAt f M m = true :=
          fun hc => absurd (of_decide_eq_true hc) hne
        rw [List.find?_cons_of_neg _ hnp2]
        exact ihm
      · rw [if_neg h2]
        rw [if_neg h2] at ihm
        exact ihm

lemma find?_first_index {α : Type} (p : α → Bool) :
    ∀ (l : List α) (x : α), l.find? p = some x →
      ∃ (i : Nat) (hi : i < l.length), l.get ⟨i, hi⟩ = x ∧ p x = true ∧
        ∀ (j : Nat) (hj : j < i), p (l.get ⟨j, lt_trans hj hi⟩) = false := by
  intro l
  induction l with
  | nil => intro x h; exact absurd h (by simp)
  | cons a l2 ih =>
    intro x h
    by_cases hp : p a = true
    · rw [List.find?_cons_of_pos _ hp] at h
      injection h with h2
      subst h2
      exact ⟨0, by simp, rfl, hp, fun j hj => absurd hj (Nat.not_lt_zero j)⟩
    · rw [List.find?_cons_of_neg _ hp] at h
      obtain ⟨i, hi, hget, hpx, hprev⟩ := ih x h
      refine ⟨i + 1, by simpa using Nat.succ_lt_succ hi, hget, hpx, ?_⟩
      intro j hj
      cases j with
      | zero => simpa using hp
      | succ j2 => exact hprev j2 (Nat.lt_of_succ_lt_succ hj)

/-- C7: when the automated side (black) has at least one legal move,
`chooseMove` scores each move of `getAllMoves` in scan order with
`minimax(apply(board, move), 2, -∞, +∞, false)` and returns the first move
whose score is maximal: every move scores no higher, and every earlier move
scores strictly lower.  In particular, with exactly one legal move that move
is returned. -/
theorem chooseMove_first_argmax (b : Board)
    (hmoves : getAllMoves b true ≠ []) :
    ∃ (i : Nat) (hi : i < (getAllMoves b true).length),
      chooseMove b = AIResult.best ((getAllMoves b true).get ⟨i, hi⟩) ∧
      (∀ (j : Nat) (hj : j < (getAllMoves b true).length),
        aiScore b ((getAllMoves b true).get ⟨j, hj⟩) ≤
          aiScore b ((getAllMoves b true).get ⟨i, hi⟩)) ∧
      (∀ (j : Nat) (hj : j < i),
        aiScore b ((getAllMoves b true).get ⟨j, lt_trans hj hi⟩) <
          aiScore b ((getAllMoves b true).get ⟨i, hi⟩)) := by
  rcases hm : getAllMoves b true with _ | ⟨m0, ms0⟩
  · exact absurd hm hmoves
  have hcm : chooseMove b = AIResult.best (aiBest (aiScore b) (m0 :: ms0) m0 negInf).1 := by
    unfold chooseMove
    rw [hm]
  set f := aiScore b with hf
  set l := m0 :: ms0 with hl
  set M := (l.map f).foldl max negInf with hM
  have hbound : ∀ x ∈ l, f x ≤ M := fun x hx =>
    mem_le_foldl_max (l.map f) negInf (f x) (List.mem_map_of_mem f hx)
  have hspec := aiBest_fst f l m0 negInf
  rw [← hM] at hspec
  by_cases hlt : negInf < M
  · rw [if_pos hlt] at hspec
    obtain ⟨i, hi, hget, hpx, hprev⟩ := find?_first_index _ l _ hspec
    have hfx : f ((aiBest f l m0 negInf).1) = M := of_decide_eq_true hpx
    refine ⟨i, hi, ?_, ?_, ?_⟩
    · rw [hcm, hget]
    · intro j hj
      rw [hget, hfx]
      exact hbound _ (List.get_mem l j hj)
    · intro j hj
      rw [hget, hfx]
      have hne := hprev j hj
      have hle2 : f (l.get ⟨j, lt_trans hj hi⟩) ≤ M :=
        hbound _ (List.get_mem l j (lt_trans hj hi))
      exact lt_of_le_of_ne hle2 (of_decide_eq_false hne)
  · rw [if_neg hlt] at hspec
    have hMbot : M = negInf :=
      le_antisymm (le_of_not_lt hlt) (foldl_max_base_le (l.map f) negInf)
    refine ⟨0, by simp [hl], ?_, ?_, ?_⟩
    · rw [hcm, hspec]
      rfl
    · intro j hj
      have h1 : f (l.get ⟨j, hj⟩) ≤ M := hbound _ (List.get_mem l j hj)
      rw [hMbot] at h1
      exact le_trans h1 (show negInf ≤ f (l.get ⟨0, by simp [hl]⟩) from bot_le)
    · intro j hj
      exact absurd hj (Nat.not_lt_zero j)

/-- A board with just the two kings: black on `(0,0)`, white on `(7,7)`. -/
def twoKingsBoard : Board :=
  [bK, none, none, none, none, none, none, none] ::
    (List.replicate 6 (List.replicate 8 (none : Cell)) ++
      [[none, none, none, none, none, none, none, wK]])

/-- C7 witness: on the two-kings board the automated side has moves, so the
characterization applies. -/
theorem chooseMove_first_argmax_wit :
    ∃ (i : Nat) (hi : i < (getAllMoves twoKingsBoard true).length),
      chooseMove twoKingsBoard =
        AIResult.best ((getAllMoves twoKingsBoard true).get ⟨i, hi⟩) ∧
      (∀ (j : Nat) (hj : j < (getAllMoves twoKingsBoard true).length),
        aiScore twoKingsBoard ((getAllMoves twoKingsBoard true).get ⟨j, hj⟩) ≤
          aiScore twoKingsBoard ((getAllMoves twoKingsBoard true).get ⟨i, hi⟩)) ∧
      (∀ (j : Nat) (hj : j < i),
        aiScore twoKingsBoard
            ((getAllMoves twoKingsBoard true).get ⟨j, lt_trans hj hi⟩) <
          aiScore twoKingsBoard ((getAllMoves twoKingsBoard true).get ⟨i, hi⟩)) :=
  chooseMove_first_argmax twoKingsBoard (by decide)

/-! ### Claim C10: alpha-beta pruning computes the plain minimax value -/

lemma le_posInf (s : Score) : s ≤ posInf := le_top

lemma negInf_le (s : Score) : negInf ≤ s := bot_le

lemma le_foldl_max_acc {γ : Type} (g : γ → Score) :
    ∀ (l : List γ) (s : Score), s ≤ l.foldl (fun a x => max a (g x)) s := by
  intro l
  induction l with
  | nil => intro s; exact le_refl s
  | cons x xs ih =>
    intro s
    rw [List.foldl_cons]
    exact le_trans (le_max_left s (g x)) (ih (max s (g x)))

lemma foldl_min_acc_le {γ : Type} (g : γ → Score) :
    ∀ (l : List γ) (s : Score), l.foldl (fun a x => min a (g x)) s ≤ s := by
  intro l
  induction l with
  | nil => intro s; exact le_refl s
  | cons x xs ih =>
    intro s
    rw [List.foldl_cons]
    exact le_trans (ih (min s (g x))) (min_le_left s (g x))

lemma maxLoop_cons (f : Move → Score → Score → Score) (β : Score) (m : Move)
    (ms : List Move) (α acc : Score) :
    maxLoop f β (m :: ms) α acc =
      (if β ≤ max α (f m α β) then max acc (f m α β)
       else maxLoop f β ms (max α (f m α β)) (max acc (f m α β))) := rfl

lemma minLoop_cons (f : Move → Score → Score → Score) (α : Score) (m : Move)
    (ms : List Move) (β acc : Score) :
    minLoop f α (m :: ms) β acc =
      (if min β (f m α β) ≤ α then min acc (f m α β)
       else minLoop f α ms (min β (f m α β)) (min acc (f m α β))) := rfl

lemma npMaxLoop_eq_foldl (f : Move → Score → Score → Score) (wv : Move → Score)
    (β : Score) (hf : ∀ (m : Move) (α2 β2 : Score), f m α2 β2 = wv m) :
    ∀ (ms : List Move) (α acc : Score),
      npMaxLoop f β ms α acc = ms.foldl (fun a m => max a (wv m)) acc := by
  intro ms
  induction ms with
  | nil => intro α acc; rfl
  | cons m ms2 ih =>
    intro α acc
    show npMaxLoop f β ms2 (max α (f m α β)) (max acc (f m α β)) = _
    rw [List.foldl_cons, ih, hf m α β]

lemma npMinLoop_eq_foldl (f : Move → Score → Score → Score) (wv : Move → Score)
    (α : Score) (hf : ∀ (m : Move) (α2 β2 : Score), f m α2 β2 = wv m) :
    ∀ (ms : List Move) (β acc : Score),
      npMinLoop f α ms β acc = ms.foldl (fun a m => min a (wv m)) acc := by
  intro ms
  induction ms with
  | nil => intro β acc; rfl
  | cons m ms2 ih =>
    intro β acc
    show npMinLoop f α ms2 (min β (f m α β)) (min acc (f m α β)) = _
    rw [List.foldl_cons, ih, hf m α β]

/-- Without the pruning break, the window does not influence the value. -/
lemma noPrune_window : ∀ (d : Nat) (b : Board) (α β α2 β2 : Score) (mx : Bool),
    noPrune d b α β mx = noPrune d b α2 β2 mx := by
  intro d
  induction d with
  | zero => intro b α β α2 β2 mx; rfl
  | succ d ih =>
    intro b α β α2 β2 mx
    rcases hm : getAllMoves b mx with _ | ⟨m, ms⟩
    · show noPruneStep (noPrune d) b α β mx = noPruneStep (noPrune d) b α2 β2 mx
      unfold noPruneStep
      rw [hm]
    · cases mx
      case false =>
        have hstep : ∀ (α3 β3 : Score), noPrune (d + 1) b α3 β3 false =
            npMinLoop (fun mv a bt => noPrune d (applyMove b mv) a bt true) α3
              (m :: ms) β3 posInf := by
          intro α3 β3
          show noPruneStep (noPrune d) b α3 β3 false = _
          unfold noPruneStep
          rw [hm]
          rfl
        rw [hstep α β, hstep α2 β2,
          npMinLoop_eq_foldl _ (fun mv => noPrune d (applyMove b mv) negInf posInf true)
            α (fun mv a2 b2 => ih (applyMove b mv) a2 b2 negInf posInf true) (m :: ms)
            β posInf,
          npMinLoop_eq_foldl _ (fun mv => noPrune d (applyMove b mv) negInf posInf true)
            α2 (fun mv a2 b2 => ih (applyMove b mv) a2 b2 negInf posInf true) (m :: ms)
            β2 posInf]
      case true =>
        have hstep : ∀ (α3 β3 : Score), noPrune (d + 1) b α3 β3 true =
            npMaxLoop (fun mv a bt => noPrune d (applyMove b mv) a bt false) β3
              (m :: ms) α3 negInf := by
          intro α3 β3
          show noPruneStep (noPrune d) b α3 β3 true = _
          unfold noPruneStep
          rw [hm]
          rfl
        rw [hstep α β, hstep α2 β2,
          npMaxLoop_eq_foldl _ (fun mv => noPrune d (applyMove b mv) negInf posInf false)
            β (fun mv a2 b2 => ih (applyMove b mv) a2 b2 negInf posInf false) (m :: ms)
            α negInf,
          npMaxLoop_eq_foldl _ (fun mv => noPrune d (applyMove b mv) negInf posInf false)
            β2 (fun mv a2 b2 => ih (applyMove b mv) a2 b2 negInf posInf false) (m :: ms)
            α2 negInf]

lemma noPrune_succ_max (d : Nat) (b : Board) (α β : Score) (m : Move)
    (ms : List Move) (hm : getAllMoves b true = m :: ms) :
    noPrune (d + 1) b α β true =
      (m :: ms).foldl
        (fun a mv => max a (noPrune d (applyMove b mv) negInf posInf false)) negInf := by
  have hstep : noPrune (d + 1) b α β true =
      npMaxLoop (fun mv a bt => noPrune d (applyMove b mv) a bt false) β
        (m :: ms) α negInf := by
    show noPruneStep (noPrune d) b α β true = _
    unfold noPruneStep
    rw [hm]
    rfl
  rw [hstep]
  exact npMaxLoop_eq_foldl _ _ β
    (fun mv a2 b2 => noPrune_window d (applyMove b mv) a2 b2 negInf posInf false)
    (m :: ms) α negInf

lemma noPrune_succ_min (d : Nat) (b : Board) (α β : Score) (m : Move)
    (ms : List Move) (hm : getAllMoves b false = m :: ms) :
    noPrune (d + 1) b α β false =
      (m :: ms).foldl
        (fun a mv => min a (noPrune d (applyMove b mv) negInf posInf true)) posInf := by
  have hstep : noPrune (d + 1) b α β false =
      npMinLoop (fun mv a bt => noPrune d (applyMove b mv) a bt true) α
        (m :: ms) β posInf := by
    show noPruneStep (noPrune d) b α β false = _
    unfold noPruneStep
    rw [hm]
    rfl
  rw [hstep]
  exact npMinLoop_eq_foldl _ _ α
    (fun mv a2 b2 => noPrune_window d (applyMove b mv) a2 b2 negInf posInf true)
    (m :: ms) β posInf

/-- Fail-soft bounds for the maximizing loop.  `α₀` is the alpha the node was
entered with, `A` the true maximum of the already-processed children (`-∞`
initially), `acc` the running `maxEval`. -/
lemma maxLoop_bounds (f : Move → Score → Score → Score) (wv : Move → Score)
    (β α₀ : Score)
    (hf : ∀ (m : Move) (α : Score), α < β →
      (f m α β ≤ α → wv m ≤ f m α β) ∧ (β ≤ f m α β → f m α β ≤ wv m) ∧
      (α < f m α β → f m α β < β → f m α β = wv m)) :
    ∀ (ms : List Move) (α acc A : Score),
      α = max α₀ acc → A ≤ acc → acc ≤ max α₀ A → α < β →
      ((maxLoop f β ms α acc ≤ α₀ →
          ms.foldl (fun a m => max a (wv m)) A ≤ maxLoop f β ms α acc) ∧
       (β ≤ maxLoop f β ms α acc →
          maxLoop f β ms α acc ≤ ms.foldl (fun a m => max a (wv m)) A) ∧
       (α₀ < maxLoop f β ms α acc → maxLoop f β ms α acc < β →
          maxLoop f β ms α acc = ms.foldl (fun a m => max a (wv m)) A)) := by
  intro ms
  induction ms with
  | nil =>
    intro α acc A hα hA1 hA2 hαβ
    have hα₀α : α₀ ≤ α := by
      rw [hα]
      exact le_max_left α₀ acc
    have hα₀β : α₀ < β := lt_of_le_of_lt hα₀α hαβ
    simp only [maxLoop, List.foldl_nil]
    refine ⟨fun _ => hA1, fun hv => ?_, fun h1 h2 => ?_⟩
    · rcases le_max_iff.mp hA2 with h3 | h3
      · exact absurd (le_trans hv h3) (not_le_of_lt hα₀β)
      · exact h3
    · rcases le_max_iff.mp hA2 with h3 | h3
      · exact absurd h3 (not_le_of_lt h1)
      · exact le_antisymm h3 hA1
  | cons m ms2 ih =>
    intro α acc A hα hA1 hA2 hαβ
    have hα₀α : α₀ ≤ α := by
      rw [hα]
      exact le_max_left α₀ acc
    have hα₀β : α₀ < β := lt_of_le_of_lt hα₀α hαβ
    obtain ⟨c1, c2, c3⟩ := hf m α hαβ
    rw [maxLoop_cons]
    simp only [List.foldl_cons]
    set e := f m α β with he
    by_cases hbr : β ≤ max α e
    · rw [if_pos hbr]
      have hβe : β ≤ e := by
        rcases le_max_iff.mp hbr with h | h
        · exact absurd h (not_le_of_lt hαβ)
        · exact h
      have hewv : e ≤ wv m := c2 hβe
      have hW : max A (wv m) ≤ ms2.foldl (fun a m => max a (wv m)) (max A (wv m)) :=
        le_foldl_max_acc wv ms2 (max A (wv m))
      have hwvW : wv m ≤ ms2.foldl (fun a m => max a (wv m)) (max A (wv m)) :=
        le_trans (le_max_right A (wv m)) hW
      have hAW : A ≤ ms2.foldl (fun a m => max a (wv m)) (max A (wv m)) :=
        le_trans (le_max_left A (wv m)) hW
      refine ⟨fun hv => ?_, fun hv => ?_, fun h1 h2 => ?_⟩
      · exact absurd (le_trans (le_max_right acc e) hv)
          (not_le_of_lt (lt_of_lt_of_le hα₀β hβe))
      · rcases max_cases acc e with ⟨hmax, hae⟩ | ⟨hmax, hae⟩
        · rw [hmax]
          rw [hmax] at hv
          rcases le_max_iff.mp hA2 with h3 | h3
          · exact absurd (le_trans hv h3) (not_le_of_lt hα₀β)
          · exact le_trans h3 hAW
        · rw [hmax]
          exact le_trans hewv hwvW
      · exact absurd h2 (not_lt_of_le (le_trans hβe (le_max_right acc e)))
    · rw [if_neg hbr]
      have hα2β : max α e < β := lt_of_not_le hbr
      have heβ : e < β := lt_of_le_of_lt (le_max_right α e) hα2β
      have hwv_e : wv m ≤ e := by
        by_cases hcase : e ≤ α
        · exact c1 hcase
        · exact le_of_eq (c3 (lt_of_not_le hcase) heβ).symm
      have hαle : α ≤ max α₀ A := by
        rw [hα]
        exact max_le (le_max_left α₀ A) hA2
      have i1 : max α e = max α₀ (max acc e) := by
        rw [hα, max_assoc]
      have i2 : max A (wv m) ≤ max acc e :=
        max_le (le_trans hA1 (le_max_left acc e))
          (le_trans hwv_e (le_max_right acc e))
      have i3 : max acc e ≤ max α₀ (max A (wv m)) := by
        apply max_le
        · exact le_trans hA2
            (max_le (le_max_left α₀ _)
              (le_trans (le_max_left A (wv m)) (le_max_right α₀ _)))
        · by_cases hcase : e ≤ α
          · exact le_trans hcase (le_trans hαle
              (max_le (le_max_left α₀ _)
                (le_trans (le_max_left A (wv m)) (le_max_right α₀ _))))
          · have hevm : e = wv m := c3 (lt_of_not_le hcase) heβ
            rw [hevm]
            exact le_trans (le_max_right A (wv m)) (le_max_right α₀ _)
      exact ih (max α e) (max acc e) (max A (wv m)) i1 i2 i3 hα2β

/-- Fail-soft bounds for the minimizing loop, mirror of `maxLoop_bounds`. -/
lemma minLoop_bounds (f : Move → Score → Score → Score) (wv : Move → Score)
    (α β₀ : Score)
    (hf : ∀ (m : Move) (β : Score), α < β →
      (f m α β ≤ α → wv m ≤ f m α β) ∧ (β ≤ f m α β → f m α β ≤ wv m) ∧
      (α < f m α β → f m α β < β → f m α β = wv m)) :
    ∀ (ms : List Move) (β acc A : Score),
      β = min β₀ acc → acc ≤ A → min β₀ A ≤ acc → α < β →
      ((minLoop f α ms β acc ≤ α →
          ms.foldl (fun a m => min a (wv m)) A ≤ minLoop f α ms β acc) ∧
       (β₀ ≤ minLoop f α ms β acc →
          minLoop f α ms β acc ≤ ms.foldl (fun a m => min a (wv m)) A) ∧
       (α < minLoop f α ms β acc → minLoop f α ms β acc < β₀ →
          minLoop f α ms β acc = ms.foldl (fun a m => min a (wv m)) A)) := by
  intro ms
  induction ms with
  | nil =>
    intro β acc A hβ hA1 hA2 hαβ
    have hββ₀ : β ≤ β₀ := by
      rw [hβ]
      exact min_le_left β₀ acc
    have hαβ₀ : α < β₀ := lt_of_lt_of_le hαβ hββ₀
    simp only [minLoop, List.foldl_nil]
    refine ⟨fun hv => ?_, fun _ => hA1, fun h1 h2 => ?_⟩
    · rcases min_le_iff.mp hA2 with h3 | h3
      · exact absurd (le_trans h3 hv) (not_le_of_lt hαβ₀)
      · exact h3
    · rcases min_le_iff.mp hA2 with h3 | h3
      · exact absurd h3 (not_le_of_lt h2)
      · exact le_antisymm hA1 h3
  | cons m ms2 ih =>
    intro β acc A hβ hA1 hA2 hαβ
    have hββ₀ : β ≤ β₀ := by
      rw [hβ]
      exact min_le_left β₀ acc
    have hαβ₀ : α < β₀ := lt_of_lt_of_le hαβ hββ₀
    obtain ⟨c1, c2, c3⟩ := hf m β hαβ
    rw [minLoop_cons]
    simp only [List.foldl_cons]
    set e := f m α β with he
    by_cases hbr : min β e ≤ α
    · rw [if_pos hbr]
      have heα : e ≤ α := by
        rcases min_le_iff.mp hbr with h | h
        · exact absurd h (not_le_of_lt hαβ)
        · exact h
      have hwve : wv m ≤ e := c1 heα
      have hW : ms2.foldl (fun a m => min a (wv m)) (min A (wv m)) ≤ min A (wv m) :=
        foldl_min_acc_le wv ms2 (min A (wv m))
      have hWwv : ms2.foldl (fun a m => min a (wv m)) (min A (wv m)) ≤ wv m :=
        le_trans hW (min_le_right A (wv m))
      have hWA : ms2.foldl (fun a m => min a (wv m)) (min A (wv m)) ≤ A :=
        le_trans hW (min_le_left A (wv m))
      refine ⟨fun hv => ?_, fun hv => ?_, fun h1 h2 => ?_⟩
      · refine le_min ?_ ?_
        · rcases min_le_iff.mp hA2 with h3 | h3
          · exact le_trans (le_trans hWwv (le_trans hwve (le_of_lt (lt_of_le_of_lt heα (lt_of_lt_of_le hαβ₀ (le_refl β₀)))))) h3
          · exact le_trans hWA h3
        · exact le_trans hWwv hwve
      · exact absurd (le_trans hv (le_trans (min_le_right acc e) heα))
          (not_le_of_lt hαβ₀)
      · exact absurd h1 (not_lt_of_le (le_trans (min_le_right acc e) heα))
    · rw [if_neg hbr]
      have hαβ2 : α < min β e := lt_of_not_le hbr
      have hαe : α < e := lt_of_lt_of_le hαβ2 (min_le_right β e)
      have hewv : e ≤ wv m := by
        by_cases hcase : e < β
        · exact le_of_eq (c3 hαe hcase)
        · exact c2 (le_of_not_lt hcase)
      have hβge : min β₀ A ≤ β := by
        rw [hβ]
        exact le_min (min_le_left β₀ A) hA2
      have i1 : min β e = min β₀ (min acc e) := by
        rw [hβ, min_assoc]
      have i2 : min acc e ≤ min A (wv m) :=
        le_min (le_trans (min_le_left acc e) hA1)
          (le_trans (min_le_right acc e) hewv)
      have i3 : min β₀ (min A (wv m)) ≤ min acc e := by
        apply le_min
        · exact le_trans
            (le_min (min_le_left β₀ _)
              (le_trans (min_le_right β₀ _) (min_le_left A (wv m))))
            hA2
        · by_cases hcase : e < β
          · have hevm : e = wv m := c3 hαe hcase
            rw [hevm]
            exact le_trans (min_le_right β₀ _) (min_le_right A (wv m))
          · exact le_trans
              (le_trans
                (le_min (min_le_left β₀ _)
                  (le_trans (min_le_right β₀ _) (min_le_left A (wv m))))
                hβge)
              (le_of_not_lt hcase)
      exact ih (min β e) (min acc e) (min A (wv m)) i1 i2 i3 hαβ2

/-- Fail-soft bounds relating the pruning search to the plain search. -/
theorem ab_np_bounds : ∀ (d : Nat) (b : Board) (α β : Score) (mx : Bool), α < β →
    ((minimax d b α β mx ≤ α → noPrune d b negInf posInf mx ≤ minimax d b α β mx) ∧
     (β ≤ minimax d b α β mx → minimax d b α β mx ≤ noPrune d b negInf posInf mx) ∧
     (α < minimax d b α β mx → minimax d b α β mx < β →
        minimax d b α β mx = noPrune d b negInf posInf mx)) := by
  intro d
  induction d with
  | zero =>
    intro b α β mx hαβ
    exact ⟨fun _ => le_refl _, fun _ => le_refl _, fun _ _ => rfl⟩
  | succ d ih =>
    intro b α β mx hαβ
    rcases hm : getAllMoves b mx with _ | ⟨m, ms⟩
    · have h1 : minimax (d + 1) b α β mx = (if mx then negInf else posInf) := by
        show minimaxStep (minimax d) b α β mx = _
        unfold minimaxStep
        rw [hm]
      have h2 : noPrune (d + 1) b negInf posInf mx = (if mx then negInf else posInf) := by
        show noPruneStep (noPrune d) b negInf posInf mx = _
        unfold noPruneStep
        rw [hm]
      rw [h1, h2]
      exact ⟨fun _ => le_refl _, fun _ => le_refl _, fun _ _ => rfl⟩
    · cases mx
      case false =>
        have hv : minimax (d + 1) b α β false =
            minLoop (fun mv a bt => minimax d (applyMove b mv) a bt true) α
              (m :: ms) β posInf := by
          show minimaxStep (minimax d) b α β false = _
          unfold minimaxStep
          rw [hm]
          rfl
        have hw := noPrune_succ_min d b negInf posInf m ms hm
        rw [hv, hw]
        refine minLoop_bounds _
          (fun mv => noPrune d (applyMove b mv) negInf posInf true) α β
          (fun mv β2 hβ2 => ih (applyMove b mv) α β2 true hβ2)
          (m :: ms) β posInf posInf ?_ (le_refl _) ?_ hαβ
        · exact (min_eq_left (le_posInf β)).symm
        · exact le_posInf _
      case true =>
        have hv : minimax (d + 1) b α β true =
            maxLoop (fun mv a bt => minimax d (applyMove b mv) a bt false) β
              (m :: ms) α negInf := by
          show minimaxStep (minimax d) b α β true = _
          unfold minimaxStep
          rw [hm]
          rfl
        have hw := noPrune_succ_max d b negInf posInf m ms hm
        rw [hv, hw]
        refine maxLoop_bounds _
          (fun mv => noPrune d (applyMove b mv) negInf posInf false) β α
          (fun mv α2 hα2 => ih (applyMove b mv) α2 β false hα2)
          (m :: ms) α negInf negInf ?_ (le_refl _) ?_ hαβ
        · exact (max_eq_left (negInf_le α)).symm
        · exact negInf_le _

/-- C10: at the full window `(-∞, +∞)`, for every board, depth and
maximizing flag, the alpha-beta `minimax` computes exactly the value of the
plain minimax `noPrune` (the same code with the pruning break removed). -/
theorem alphabeta_eq_noPrune (d : Nat) (b : Board) (mx : Bool) :
    minimax d b negInf posInf mx = noPrune d b negInf posInf mx := by
  have hlt : negInf < posInf := by decide
  obtain ⟨h1, h2, h3⟩ := ab_np_bounds d b negInf posInf mx hlt
  rcases le_or_lt (minimax d b negInf posInf mx) negInf with hle | hgt
  · have hv : minimax d b negInf posInf mx = negInf :=
      le_antisymm hle (negInf_le _)
    have hw := h1 hle
    rw [hv] at hw ⊢
    exact (le_antisymm hw (negInf_le _)).symm
  · rcases le_or_lt posInf (minimax d b negInf posInf mx) with hge | hlt2
    · have hv : minimax d b negInf posInf mx = posInf :=
        le_antisymm (le_posInf _) hge
      have hw := h2 hge
      rw [hv] at hw ⊢
      exact le_antisymm hw (le_posInf _)
    · exact h3 hgt hlt2

end Chess
